import Mathlib

/-!
# Level-synchronous parallel BFS: shared-memory and message-passing engines

A shallow embedding of `bfs_omp.c` and `bfs_mpi.c`.

* The linked adjacency lists `Node *` become `List Nat`; the array `adj_lists`
  becomes a list of such lists, indexed by vertex id.
* The `int` arrays `visited` become `List Nat`; C truthiness is comparison with 0.
* The array `queue` together with the counter `rear` becomes the list of the
  entries written so far, `queue[0..rear)`; `rear` is its length.  The list is
  not cut off at `num_vertices`, so that `rear <= num_vertices` is a property
  to be established of a run and not a property of the representation.  For
  `bfs_parallel` it is established (`bfs_point_nodup`).  For `bfs_mpi` it
  fails with two or more processes; there `mpi_round` says what a round
  computes as long as the merged queue fits into the `num_vertices` slots that
  are allocated and broadcast, and `mpi_round_checked` adds that test: a round
  whose gather would write past the array has no defined result.
* OpenMP: the iteration space `[front, rear)` of the work-shared `for` loop
  is fixed when the loop is entered (the trip count of a work-sharing loop is
  computed before entry), so the vertices appended during a level are not
  scanned in that level.  The critical sections of one level are executed one
  after another in an order chosen by the runtime; that order is an explicit
  argument (`picks`): each pick names the frontier slot whose scan of its
  adjacency list advances by one node.  The unsynchronised test in front of
  the critical section can only skip a vertex that is already marked, so a
  level is the sequence of its check-and-sets.  After the barrier
  `front = rear` reads `rear` as it is then, that is, after the appends of
  the level.
* MPI: every rank runs the same round body on the queue broadcast by rank 0
  and on its private `visited` array; the two gathers append the local
  discovery lists to the queue of rank 0 in rank order.  `MPI_Gatherv` is taken
  with its documented meaning: the block sent by rank `i` is stored at
  `recvbuf + displs[i]`.
* `rand()` is the list of the values it returns, consumed from the front.
-/

namespace BfsProject

/-! ## Graph store (identical in both source files) -/

/-- The struct `Graph`: a vertex count and one adjacency list per vertex. -/
structure Graph where
  num_vertices : Nat
  adj_lists : List (List Nat)
deriving DecidableEq, Repr

/-- The list hanging off `graph->adj_lists[v]`. -/
def neighbors (g : Graph) (v : Nat) : List Nat :=
  g.adj_lists.getD v []

/-- `create_node(vertex)`: a single node whose `next` is `NULL`. -/
def create_node (vertex : Nat) : List Nat :=
  [vertex]

/-- `create_graph(num_vertices)`: every adjacency list is `NULL`. -/
def create_graph (num_vertices : Nat) : Graph :=
  { num_vertices := num_vertices, adj_lists := List.replicate num_vertices [] }

/-- `add_edge(graph, src, dest)`: a node for `dest` is linked in front of
`adj_lists[src]`, then a node for `src` in front of `adj_lists[dest]`. -/
def add_edge (graph : Graph) (src dest : Nat) : Graph :=
  let g1 : Graph :=
    { graph with
      adj_lists := graph.adj_lists.set src (create_node dest ++ graph.adj_lists.getD src []) }
  { g1 with
    adj_lists := g1.adj_lists.set dest (create_node src ++ g1.adj_lists.getD dest []) }

/-- The array `adj_lists` has `num_vertices` slots and every stored vertex id
lies in `[0, num_vertices)`. -/
def Graph.WellFormed (g : Graph) : Prop :=
  g.adj_lists.length = g.num_vertices ∧
    ∀ l ∈ g.adj_lists, ∀ a ∈ l, a < g.num_vertices

instance (g : Graph) : Decidable g.WellFormed := by
  unfold Graph.WellFormed
  infer_instance

/-- Graphs obtained from `create_graph` by `add_edge` calls with both end
points in range. -/
inductive Built : Graph → Prop
  | create (n : Nat) : Built (create_graph n)
  | add (g : Graph) (u v : Nat) :
      Built g → u < g.num_vertices → v < g.num_vertices → Built (add_edge g u v)

/-! ## Reachability and distance -/

/-- A path of adjacency edges with exactly `k` edges from `s` to the vertex. -/
inductive PathLen (g : Graph) (s : Nat) : Nat → Nat → Prop
  | zero : PathLen g s 0 s
  | step (k u v : Nat) : PathLen g s k u → v ∈ neighbors g u → PathLen g s (k + 1) v

/-- The vertex is reachable from `s` by a path of adjacency edges. -/
inductive Reach (g : Graph) (s : Nat) : Nat → Prop
  | refl : Reach g s s
  | step (u v : Nat) : Reach g s u → v ∈ neighbors g u → Reach g s v

/-- The shortest path from `s` to `v` has exactly `k` edges. -/
def DistEq (g : Graph) (s k v : Nat) : Prop :=
  PathLen g s k v ∧ ∀ j, j < k → ¬ PathLen g s j v

/-! ## The check-and-set shared by both engines -/

/-- The body guarded by `if (!visited[adj_vertex])`: mark the vertex and
append it to the output buffer (`queue` in `bfs_parallel`, `local_queue` in
`bfs_mpi`).  The pair is `(visited, buffer)`. -/
def try_mark (vq : List Nat × List Nat) (adj_vertex : Nat) : List Nat × List Nat :=
  if vq.1.getD adj_vertex 0 = 0 then
    (vq.1.set adj_vertex 1, vq.2 ++ [adj_vertex])
  else vq

/-- The check-and-set applied to a sequence of adjacency nodes in order. -/
def expand (vq : List Nat × List Nat) (evs : List Nat) : List Nat × List Nat :=
  evs.foldl try_mark vq

/-! ## Shared-memory engine (`bfs_omp.c`) -/

/-- The variables of `bfs_parallel`; `rear` is `queue.length`. -/
structure BfsState where
  queue : List Nat
  front : Nat
  visited : List Nat
deriving DecidableEq, Repr

/-- The value of `rear`. -/
def BfsState.rear (s : BfsState) : Nat :=
  s.queue.length

/-- The current frontier `queue[front..rear)`. -/
def BfsState.frontier (s : BfsState) : List Nat :=
  s.queue.drop s.front

/-- Lines 74-75: the start vertex is enqueued and marked. -/
def bfs_init (start_vertex : Nat) (visited : List Nat) : BfsState :=
  { queue := [start_vertex], front := 0, visited := visited.set start_vertex 1 }

/-- The order in which the adjacency nodes of one level reach the critical
section.  `temps` holds, per frontier slot, the part of the adjacency list
still to be scanned (the pointer `temp`); a pick advances one slot by one
node; when the picks are used up the remaining scans run slot by slot. -/
def interleave : List Nat → List (List Nat) → List Nat
  | [], temps => temps.flatten
  | p :: ps, temps =>
    match temps.getD p [] with
    | [] => interleave ps temps
    | a :: rest => a :: interleave ps (temps.set p rest)

/-- The adjacency nodes visited during one level, in critical-section order. -/
def level_events (g : Graph) (picks : List Nat) (s : BfsState) : List Nat :=
  interleave picks (s.frontier.map (neighbors g))

/-- One iteration of `while (front < rear)`: the work-shared loop over
`q = front .. rear-1` with the bounds read on entry, the barrier, and
`front = rear`, where `rear` has by then been advanced by every append of the
level. -/
def bfs_level (g : Graph) (picks : List Nat) (s : BfsState) : BfsState :=
  let vq := expand (s.visited, s.queue) (level_events g picks s)
  { queue := vq.2, front := vq.2.length, visited := vq.1 }

/-- The state at the start of round `k` (after `k` evaluations of the loop
guard, each followed by the loop body when the guard holds). -/
def bfs_rounds (g : Graph) (sched : Nat → List Nat) (s0 : BfsState) : Nat → BfsState
  | 0 => s0
  | k + 1 =>
    let s := bfs_rounds g sched s0 k
    if s.front < s.rear then bfs_level g (sched k) s else s

/-- The state inside round `k`, after the first `m` critical sections of
that round. -/
def bfs_point (g : Graph) (sched : Nat → List Nat) (s0 : BfsState) (k m : Nat) : BfsState :=
  let s := bfs_rounds g sched s0 k
  let vq := expand (s.visited, s.queue) ((level_events g (sched k) s).take m)
  { queue := vq.2, front := s.front, visited := vq.1 }

/-- The loop `while (front < rear)`, with the number of rounds executed. -/
def bfs_loop (g : Graph) (sched : Nat → List Nat) : Nat → Nat → BfsState → Option (BfsState × Nat)
  | fuel, k, s =>
    if s.front < s.rear then
      match fuel with
      | 0 => none
      | fuel + 1 => bfs_loop g sched fuel (k + 1) (bfs_level g (sched k) s)
    else some (s, k)

/-- The whole body of `bfs_parallel`: final variables and number of rounds. -/
def bfs_run (g : Graph) (start_vertex : Nat) (visited : List Nat)
    (sched : Nat → List Nat) (fuel : Nat) : Option (BfsState × Nat) :=
  bfs_loop g sched fuel 0 (bfs_init start_vertex visited)

/-- The function `bfs_parallel`: the array `visited` it leaves to the caller. -/
def bfs_parallel (g : Graph) (start_vertex : Nat) (visited : List Nat)
    (sched : Nat → List Nat) (fuel : Nat) : Option (List Nat) :=
  (bfs_run g start_vertex visited sched fuel).map (fun r => r.1.visited)

/-- The schedule of a single worker: every level is scanned slot by slot. -/
def seq_sched : Nat → List Nat :=
  fun _ => []

/-! ## Message-passing engine (`bfs_mpi.c`) -/

/-- The variables of `bfs_mpi` across the ranks: the queue of rank 0 (which
every rank holds after the broadcast), `front`, and the private `visited`
array of each rank. -/
structure MpiState where
  queue : List Nat
  front : Nat
  visited : List (List Nat)
deriving DecidableEq, Repr

/-- The value of `rear` on rank 0. -/
def MpiState.rear (s : MpiState) : Nat :=
  s.queue.length

/-- Lines 73-78: only rank 0 enqueues and marks the start vertex. -/
def mpi_init (start_vertex : Nat) (visited : List (List Nat)) : MpiState :=
  { queue := [start_vertex], front := 0,
    visited := visited.set 0 ((visited.getD 0 []).set start_vertex 1) }

/-- The indices taken by `for (i = ...; i < rear; i += size)` from `i` on. -/
def stride_from (size rear : Nat) : Nat → Nat → List Nat
  | 0, _ => []
  | fuel + 1, i => if i < rear then i :: stride_from size rear fuel (i + size) else []

/-- The queue indices of rank `rank`: `front + rank`, then steps of `size`. -/
def rank_slice (front rank size rear : Nat) : List Nat :=
  stride_from size rear (rear - (front + rank)) (front + rank)

/-- The adjacency nodes rank `rank` meets in one round, in loop order. -/
def rank_events (g : Graph) (queue : List Nat) (front rank size : Nat) : List Nat :=
  (rank_slice front rank size queue.length).flatMap
    (fun i => neighbors g (queue.getD i 0))

/-- Lines 95-107 on one rank: the new private `visited` array and the
`local_queue` of the round. -/
def rank_expand (g : Graph) (queue : List Nat) (front rank size : Nat)
    (visited : List Nat) : List Nat × List Nat :=
  expand (visited, []) (rank_events g queue front rank size)

/-- Rank `rank` inside a round, after the first `m` adjacency nodes it meets. -/
def rank_point (g : Graph) (queue : List Nat) (front rank size : Nat)
    (visited : List Nat) (m : Nat) : List Nat × List Nat :=
  expand (visited, []) ((rank_events g queue front rank size).take m)

/-- One pass through the body of `while (1)` after the exit test: every rank
expands its slice, the gathers append the local queues in rank order to the
queue of rank 0, `rear` grows by `total_count`; `front` is not assigned.
This is the round of the program as long as the new `rear` is at most
`num_vertices`, the number of slots of `queue` and of ints in a broadcast;
`mpi_round_checked` below carries that test. -/
def mpi_round (size : Nat) (graphs : Nat → Graph) (s : MpiState) : MpiState :=
  let results := (List.range size).map
    (fun rank => rank_expand (graphs rank) s.queue s.front rank size (s.visited.getD rank []))
  { queue := s.queue ++ (results.map Prod.snd).flatten,
    front := s.front,
    visited := results.map Prod.fst }

/-- The state after `k` passes through the round body (of the program as
long as `rear` has stayed within `num_vertices`, see `mpi_rounds_checked`). -/
def mpi_rounds (size : Nat) (graphs : Nat → Graph) (s0 : MpiState) : Nat → MpiState
  | 0 => s0
  | k + 1 => mpi_round size graphs (mpi_rounds size graphs s0 k)

/-- The loop `while (1)` with its only exit `if (rear == front) break;`. -/
def mpi_loop (size : Nat) (graphs : Nat → Graph) : Nat → MpiState → Option MpiState
  | fuel, s =>
    if s.rear = s.front then some s
    else
      match fuel with
      | 0 => none
      | fuel + 1 => mpi_loop size graphs fuel (mpi_round size graphs s)

/-- The function `bfs_mpi` on all ranks together: the state in which the loop
is left, if it is left within `fuel` rounds. -/
def bfs_mpi (size : Nat) (graphs : Nat → Graph) (start_vertex : Nat)
    (visited : List (List Nat)) (fuel : Nat) : Option MpiState :=
  mpi_loop size graphs fuel (mpi_init start_vertex visited)

/-- Fresh `calloc`ed arrays, one per rank. -/
def zero_visited (size n : Nat) : List (List Nat) :=
  List.replicate size (List.replicate n 0)

/-- The state after `k` rounds of `bfs_mpi` when all `size` ranks hold the
graph `g` and start from fresh arrays (of the program as long as `rear` has
stayed within `num_vertices`, see `mpi_run_checked`). -/
def mpi_run (size : Nat) (g : Graph) (start_vertex k : Nat) : MpiState :=
  mpi_rounds size (fun _ => g) (mpi_init start_vertex (zero_visited size g.num_vertices)) k

/-! ## Invariants -/

/-- Queue entries and marks are reachable from the start vertex. -/
def Sound (g : Graph) (start_vertex : Nat) (queue visited : List Nat) : Prop :=
  (∀ v ∈ queue, Reach g start_vertex v) ∧ ∀ v, visited.getD v 0 ≠ 0 → Reach g start_vertex v

/-- What holds at every point of `bfs_parallel` on a graph with `n` vertices:
the array has `n` flags, each 0 or 1, the queue holds vertex ids, and a
vertex occurs in the queue once if it is marked and not at all otherwise. -/
def OmpInv (n : Nat) (queue visited : List Nat) : Prop :=
  visited.length = n ∧ (∀ v, visited.getD v 0 ≤ 1) ∧ (∀ v ∈ queue, v < n) ∧
  ∀ v, queue.count v = visited.getD v 0

/-- What holds between the rounds `mpi_round` on `size` ranks that all hold
a graph with `n` vertices: `front` is still 0, every rank has an array of
`n` flags, the queue holds vertex ids, and a vertex occurs in the queue as
often as there are ranks that have marked it. -/
def MpiInv (size n : Nat) (s : MpiState) : Prop :=
  s.front = 0 ∧ s.visited.length = size ∧
  (∀ r, r < size → (s.visited.getD r []).length = n) ∧
  (∀ r v, (s.visited.getD r []).getD v 0 ≤ 1) ∧
  (∀ v ∈ s.queue, v < n) ∧
  ∀ v, s.queue.count v =
    ((List.range size).map (fun r => (s.visited.getD r []).getD v 0)).sum

/-! ## Scenario graphs -/

/-- Scenario A: edges (0,1),(1,2),(2,3),(0,4) added in that order to 5 vertices. -/
def scenarioA : Graph :=
  add_edge (add_edge (add_edge (add_edge (create_graph 5) 0 1) 1 2) 2 3) 0 4

/-- Scenario C: two disjoint triangles on the vertices 0-2 and 3-5. -/
def scenarioC : Graph :=
  add_edge (add_edge (add_edge (add_edge (add_edge (add_edge
    (create_graph 6) 0 1) 1 2) 2 0) 3 4) 4 5) 5 3

/-- Scenario D: 5 vertices, no edges. -/
def scenarioD : Graph :=
  create_graph 5

/-- A path 0 - 1 - 2 and two isolated vertices 3, 4. -/
def pathGraph : Graph :=
  add_edge (add_edge (create_graph 5) 0 1) 1 2

/-! ## The merge on rank 0, the generator, the driver -/

/-- Lines 115-119: `displs[i] = total_count; total_count += counts[i];` for the
counts still to be read, from the current value of `total_count`; the result
is the rest of `displs` and the final `total_count`. -/
def displs_loop : List Nat → Nat → List Nat × Nat
  | [], total_count => ([], total_count)
  | c :: cs, total_count =>
    ((total_count :: (displs_loop cs (total_count + c)).1), (displs_loop cs (total_count + c)).2)

/-- A block of values stored into a buffer from index `off` on. -/
def write_at (buf : List Nat) (off : Nat) (data : List Nat) : List Nat :=
  buf.take off ++ data ++ buf.drop (off + data.length)

/-- `MPI_Gatherv` at the root: the block sent by rank `i` is stored in the
receive buffer from index `displs[i]` on. -/
def gatherv : List Nat → List (List Nat) → List Nat → List Nat
  | recvbuf, l :: ls, d :: ds => gatherv (write_at recvbuf d l) ls ds
  | recvbuf, _, _ => recvbuf

/-- The `local_queue`s of one round, one per rank. -/
def round_locals (size : Nat) (graphs : Nat → Graph) (s : MpiState) : List (List Nat) :=
  (List.range size).map (fun rank =>
    (rank_expand (graphs rank) s.queue s.front rank size (s.visited.getD rank [])).2)

/-- Lines 110-123 on rank 0: the counts are gathered, `displs` and
`total_count` computed, the local queues gathered into `&queue[rear]` (whose
`total_count` slots hold `slots` before), and `rear` advanced.  The result is
`queue[0..rear)` and `rear` afterwards. -/
def mpi_merge (queue slots : List Nat) (locals : List (List Nat)) : List Nat × Nat :=
  let counts := locals.map List.length
  let dt := displs_loop counts 0
  (queue ++ gatherv slots locals dt.1, queue.length + dt.2)

/-- The `do ... while (src == dest || dest == src)` of the generator on the
values that `rand()` returns next: the drawn `dest` and the values left. -/
def draw_dest (num_vertices src : Nat) : List Nat → Option (Nat × List Nat)
  | [] => none
  | r :: rs =>
    if src = r % num_vertices ∨ r % num_vertices = src then draw_dest num_vertices src rs
    else some (r % num_vertices, rs)

/-- `generate_random_graph(graph, num_edges)` on the values that `rand()`
returns; `none` when the given values are used up before it returns. -/
def generate_random_graph (graph : Graph) : Nat → List Nat → Option Graph
  | 0, _ => some graph
  | _ + 1, [] => none
  | i + 1, r :: rs =>
    match draw_dest graph.num_vertices (r % graph.num_vertices) rs with
    | none => none
    | some (dest, rest) =>
      generate_random_graph (add_edge graph (r % graph.num_vertices) dest) i rest

/-- The graphs of `main` in `bfs_mpi.c`: every rank calls `create_graph`, only
rank 0 fills in edges. -/
def main_graphs (g : Graph) : Nat → Graph :=
  fun rank => if rank = 0 then g else create_graph g.num_vertices

/-- The state after `k` rounds of `bfs_mpi` on `size` ranks, rank `r` holding
the graph `graphs r`, all with fresh arrays of `n` flags. -/
def mpi_trace (size : Nat) (graphs : Nat → Graph) (start_vertex n k : Nat) : MpiState :=
  mpi_rounds size graphs (mpi_init start_vertex (zero_visited size n)) k

/-- An array entry is left as it is or changed from 0 to 1. -/
def FlagStep (a b : Nat) : Prop :=
  b = a ∨ (a = 0 ∧ b = 1)

/-- One pass through the round body on the arrays as they are allocated:
`queue` has `n = num_vertices` slots (line 72) and the broadcasts carry `n`
ints (lines 85, 134).  As long as the merged queue fits, every rank sees all
of `queue[0..rear)` and the round is `mpi_round`; when the gather would write
past slot `n - 1` the behaviour of the program is undefined, which is `none`. -/
def mpi_round_checked (n size : Nat) (graphs : Nat → Graph) (s : MpiState) : Option MpiState :=
  if (mpi_round size graphs s).rear ≤ n then some (mpi_round size graphs s) else none

/-- The state after `k` rounds on the arrays as allocated, `none` once a write
has gone past the `n` slots of `queue`. -/
def mpi_rounds_checked (n size : Nat) (graphs : Nat → Graph) (s0 : MpiState) :
    Nat → Option MpiState
  | 0 => if s0.rear ≤ n then some s0 else none
  | k + 1 =>
    match mpi_rounds_checked n size graphs s0 k with
    | none => none
    | some s => mpi_round_checked n size graphs s

/-- The state after `k` rounds of `bfs_mpi` on the arrays as allocated when
all `size` ranks hold the graph `g` and start from fresh arrays. -/
def mpi_run_checked (size : Nat) (g : Graph) (start_vertex k : Nat) : Option MpiState :=
  mpi_rounds_checked g.num_vertices size (fun _ => g)
    (mpi_init start_vertex (zero_visited size g.num_vertices)) k

/-- Seven vertices: the path 6 - 2 - 1 - 3 - 4 and, apart from it, the edge
0 - 5. -/
def forkGraph : Graph :=
  add_edge (add_edge (add_edge (add_edge (add_edge (create_graph 7) 6 2) 2 1) 1 3) 3 4) 0 5

/-! ## Facts about arrays as lists -/

theorem getD_set_eq (l : List Nat) (a v x : Nat) :
    (l.set a x).getD v 0 = if v = a ∧ a < l.length then x else l.getD v 0 := by
  simp only [List.getD_eq_getElem?_getD, List.getElem?_set]
  by_cases h : a = v
  · subst h
    by_cases h2 : a < l.length
    · simp [h2]
    · have h3 : l[a]? = none := by simp; omega
      simp [h2, h3]
  · have h2 : ¬ v = a := fun e => h e.symm
    simp [h, h2]

theorem getD_replicate_zero (n v : Nat) : (List.replicate n 0).getD v 0 = 0 := by
  simp only [List.getD_eq_getElem?_getD, List.getElem?_replicate]
  split <;> rfl

theorem getD_zero_of_all_zero (l : List Nat) (h : ∀ x ∈ l, x = 0) (v : Nat) :
    l.getD v 0 = 0 := by
  rw [List.getD_eq_getElem?_getD]
  cases hv : l[v]? with
  | none => rfl
  | some x =>
    have hx : x ∈ l := List.mem_iff_getElem?.mpr ⟨v, hv⟩
    simp [h x hx]

/-! ## The check-and-set -/

theorem expand_nil (vq : List Nat × List Nat) : expand vq [] = vq := rfl

theorem expand_cons (vq : List Nat × List Nat) (a : Nat) (evs : List Nat) :
    expand vq (a :: evs) = expand (try_mark vq a) evs := rfl

theorem expand_append (vq : List Nat × List Nat) (e1 e2 : List Nat) :
    expand vq (e1 ++ e2) = expand (expand vq e1) e2 := by
  unfold expand
  rw [List.foldl_append]

theorem try_mark_fst_length (vq : List Nat × List Nat) (a : Nat) :
    (try_mark vq a).1.length = vq.1.length := by
  unfold try_mark
  split <;> simp

theorem expand_fst_length (evs : List Nat) (vq : List Nat × List Nat) :
    (expand vq evs).1.length = vq.1.length := by
  induction evs generalizing vq with
  | nil => rfl
  | cons a evs ih => rw [expand_cons, ih, try_mark_fst_length]

/-- A successful or failed check-and-set keeps, for every vertex, the balance
between its mark and the number of times it was appended. -/
theorem try_mark_count (vq : List Nat × List Nat) (a : Nat) (ha : a < vq.1.length) (v : Nat) :
    (try_mark vq a).1.getD v 0 + vq.2.count v = vq.1.getD v 0 + (try_mark vq a).2.count v := by
  unfold try_mark
  split
  · rename_i h0
    simp only [getD_set_eq, List.count_append]
    by_cases hva : v = a
    · subst hva
      rw [if_pos ⟨rfl, ha⟩, h0]
      simp
      omega
    · have hav : ¬ a = v := fun e => hva e.symm
      simp [hva, hav]
  · rfl

theorem expand_count (evs : List Nat) (vq : List Nat × List Nat)
    (hr : ∀ a ∈ evs, a < vq.1.length) (v : Nat) :
    (expand vq evs).1.getD v 0 + vq.2.count v = vq.1.getD v 0 + (expand vq evs).2.count v := by
  induction evs generalizing vq with
  | nil => rfl
  | cons a evs ih =>
    rw [expand_cons]
    have h1 := try_mark_count vq a (hr a (List.mem_cons_self _ _)) v
    have h2 := ih (try_mark vq a) (fun b hb => by
      rw [try_mark_fst_length]
      exact hr b (List.mem_cons_of_mem _ hb))
    omega

theorem try_mark_le_one (vq : List Nat × List Nat) (a : Nat)
    (h : ∀ v, vq.1.getD v 0 ≤ 1) (v : Nat) : (try_mark vq a).1.getD v 0 ≤ 1 := by
  unfold try_mark
  split
  · simp only [getD_set_eq]
    split
    · exact le_refl 1
    · exact h v
  · exact h v

theorem expand_le_one (evs : List Nat) (vq : List Nat × List Nat)
    (h : ∀ v, vq.1.getD v 0 ≤ 1) (v : Nat) : (expand vq evs).1.getD v 0 ≤ 1 := by
  induction evs generalizing vq with
  | nil => exact h v
  | cons a evs ih =>
    rw [expand_cons]
    exact ih (try_mark vq a) (try_mark_le_one vq a h)

theorem try_mark_keeps_mark (vq : List Nat × List Nat) (a v : Nat)
    (h : vq.1.getD v 0 ≠ 0) : (try_mark vq a).1.getD v 0 ≠ 0 := by
  unfold try_mark
  split
  · simp only [getD_set_eq]
    split
    · exact one_ne_zero
    · exact h
  · exact h

theorem expand_keeps_mark (evs : List Nat) (vq : List Nat × List Nat) (v : Nat)
    (h : vq.1.getD v 0 ≠ 0) : (expand vq evs).1.getD v 0 ≠ 0 := by
  induction evs generalizing vq with
  | nil => exact h
  | cons a evs ih =>
    rw [expand_cons]
    exact ih (try_mark vq a) (try_mark_keeps_mark vq a v h)

theorem try_mark_marks (vq : List Nat × List Nat) (a : Nat) (ha : a < vq.1.length) :
    (try_mark vq a).1.getD a 0 ≠ 0 := by
  unfold try_mark
  split
  · simp [getD_set_eq, ha]
  · assumption

/-- Every adjacency node that went through the check-and-set is marked afterwards. -/
theorem expand_marks (evs : List Nat) (vq : List Nat × List Nat)
    (hr : ∀ a ∈ evs, a < vq.1.length) (v : Nat) (hv : v ∈ evs) :
    (expand vq evs).1.getD v 0 ≠ 0 := by
  induction evs generalizing vq with
  | nil => cases hv
  | cons a evs ih =>
    rw [expand_cons]
    rcases List.mem_cons.mp hv with h | h
    · subst h
      exact expand_keeps_mark evs _ v (try_mark_marks vq v (hr v (List.mem_cons_self _ _)))
    · exact ih (try_mark vq a) (fun b hb => by
        rw [try_mark_fst_length]
        exact hr b (List.mem_cons_of_mem _ hb)) h

theorem try_mark_sound (P : Nat → Prop) (vq : List Nat × List Nat) (a : Nat) (ha : P a)
    (h1 : ∀ v, vq.1.getD v 0 ≠ 0 → P v) (h2 : ∀ v ∈ vq.2, P v) :
    (∀ v, (try_mark vq a).1.getD v 0 ≠ 0 → P v) ∧ ∀ v ∈ (try_mark vq a).2, P v := by
  unfold try_mark
  split
  · constructor
    · intro v hv
      simp only [getD_set_eq] at hv
      split at hv
      · rename_i hc
        rw [hc.1]
        exact ha
      · exact h1 v hv
    · intro v hv
      rcases List.mem_append.mp hv with h | h
      · exact h2 v h
      · rw [List.mem_singleton.mp h]
        exact ha
  · exact ⟨h1, h2⟩

/-- Marks and buffer entries only ever come from the adjacency nodes scanned. -/
theorem expand_sound (P : Nat → Prop) (evs : List Nat) (vq : List Nat × List Nat)
    (he : ∀ a ∈ evs, P a)
    (h1 : ∀ v, vq.1.getD v 0 ≠ 0 → P v) (h2 : ∀ v ∈ vq.2, P v) :
    (∀ v, (expand vq evs).1.getD v 0 ≠ 0 → P v) ∧ ∀ v ∈ (expand vq evs).2, P v := by
  induction evs generalizing vq with
  | nil => exact ⟨h1, h2⟩
  | cons a evs ih =>
    rw [expand_cons]
    have hs := try_mark_sound P vq a (he a (List.mem_cons_self _ _)) h1 h2
    exact ih (try_mark vq a) (fun b hb => he b (List.mem_cons_of_mem _ hb)) hs.1 hs.2

theorem try_mark_buf_grows (vq : List Nat × List Nat) (a : Nat) :
    ∃ t, (try_mark vq a).2 = vq.2 ++ t := by
  unfold try_mark
  split
  · exact ⟨[a], rfl⟩
  · exact ⟨[], by simp⟩

/-- The buffer is only appended to. -/
theorem expand_buf_grows (evs : List Nat) (vq : List Nat × List Nat) :
    ∃ t, (expand vq evs).2 = vq.2 ++ t := by
  induction evs generalizing vq with
  | nil => exact ⟨[], by simp [expand_nil]⟩
  | cons a evs ih =>
    rw [expand_cons]
    obtain ⟨t1, h1⟩ := try_mark_buf_grows vq a
    obtain ⟨t2, h2⟩ := ih (try_mark vq a)
    exact ⟨t1 ++ t2, by rw [h2, h1, List.append_assoc]⟩

/-- The marks do not depend on what the buffer held, and the buffer grows by
the discoveries made from an empty buffer. -/
theorem expand_buf (evs : List Nat) (vis b1 b2 : List Nat) :
    expand (vis, b1 ++ b2) evs =
      ((expand (vis, b2) evs).1, b1 ++ (expand (vis, b2) evs).2) := by
  induction evs generalizing vis b2 with
  | nil => rfl
  | cons a evs ih =>
    rw [expand_cons, expand_cons]
    unfold try_mark
    by_cases h : vis.getD a 0 = 0
    · simp only [h, if_true]
      rw [List.append_assoc]
      exact ih _ _
    · simp only [h, if_false]
      exact ih _ _

/-- The mark of a vertex after a sequence of check-and-sets, read off the
marks before it. -/
theorem expand_getD (evs : List Nat) (vq : List Nat × List Nat) (v : Nat) :
    (expand vq evs).1.getD v 0 =
      if v ∈ evs ∧ v < vq.1.length ∧ vq.1.getD v 0 = 0 then 1 else vq.1.getD v 0 := by
  induction evs generalizing vq with
  | nil => simp [expand_nil]
  | cons a evs ih =>
    rw [expand_cons, ih, try_mark_fst_length]
    unfold try_mark
    by_cases h0 : vq.1.getD a 0 = 0
    · simp only [h0, if_true, getD_set_eq]
      by_cases hva : v = a
      · subst hva
        by_cases hl : v < vq.1.length
        · simp only [hl, h0, and_self, and_true, if_true, one_ne_zero, and_false, if_false,
            List.mem_cons, true_or]
        · simp only [hl, and_false, if_false, false_and]
      · simp only [hva, false_and, if_false, List.mem_cons, false_or]
    · simp only [h0, if_false]
      by_cases hva : v = a
      · subst hva
        simp only [h0, and_false, if_false]
      · simp only [hva, List.mem_cons, false_or]

theorem list_eq_of_getD (l1 l2 : List Nat) (hl : l1.length = l2.length)
    (h : ∀ v, l1.getD v 0 = l2.getD v 0) : l1 = l2 := by
  apply List.ext_getElem hl
  intro n h1 h2
  have := h n
  simp only [List.getD_eq_getElem?_getD, List.getElem?_eq_getElem h1,
    List.getElem?_eq_getElem h2, Option.getD_some] at this
  exact this

/-- The marks left by a sequence of check-and-sets depend only on which
vertices occur in it, not on their order nor on the buffer. -/
theorem expand_fst_congr (e1 e2 vis b1 b2 : List Nat) (h : ∀ v, v ∈ e1 ↔ v ∈ e2) :
    (expand (vis, b1) e1).1 = (expand (vis, b2) e2).1 := by
  apply list_eq_of_getD
  · rw [expand_fst_length, expand_fst_length]
  · intro v
    rw [expand_getD, expand_getD]
    simp only [h v]

/-! ## Shared-memory engine -/

theorem interleave_single (ps : List Nat) (l : List Nat) : interleave ps [l] = l := by
  induction ps generalizing l with
  | nil => simp [interleave]
  | cons p ps ih =>
    cases p with
    | zero =>
      cases l with
      | nil => simp [interleave, ih]
      | cons a rest => simp [interleave, ih]
    | succ p => simp [interleave, ih]

theorem flatten_set_perm (temps : List (List Nat)) (p a : Nat) (rest : List Nat)
    (h : temps.getD p [] = a :: rest) :
    (a :: (temps.set p rest).flatten).Perm temps.flatten := by
  induction temps generalizing p with
  | nil => simp at h
  | cons t ts ih =>
    cases p with
    | zero =>
      simp at h
      subst h
      simp
    | succ p =>
      have h2 : ts.getD p [] = a :: rest := h
      simp only [List.set_cons_succ, List.flatten_cons]
      exact (List.perm_middle.symm).trans (List.Perm.append_left t (ih p h2))

/-- Whatever the picks, every adjacency node of the frontier reaches the
critical section exactly once. -/
theorem interleave_perm (ps : List Nat) (temps : List (List Nat)) :
    (interleave ps temps).Perm temps.flatten := by
  induction ps generalizing temps with
  | nil => simp [interleave]
  | cons p ps ih =>
    unfold interleave
    cases h : temps.getD p [] with
    | nil => exact ih temps
    | cons a rest =>
      exact ((ih (temps.set p rest)).cons a).trans (flatten_set_perm temps p a rest h)

theorem mem_level_events (g : Graph) (picks : List Nat) (s : BfsState) (a : Nat) :
    a ∈ level_events g picks s ↔ ∃ u ∈ s.frontier, a ∈ neighbors g u := by
  unfold level_events
  rw [(interleave_perm picks _).mem_iff, List.mem_flatten]
  constructor
  · rintro ⟨l, hl, ha⟩
    obtain ⟨u, hu, rfl⟩ := List.mem_map.mp hl
    exact ⟨u, hu, ha⟩
  · rintro ⟨u, hu, ha⟩
    exact ⟨neighbors g u, List.mem_map.mpr ⟨u, hu, rfl⟩, ha⟩

theorem bfs_level_front (g : Graph) (picks : List Nat) (s : BfsState) :
    (bfs_level g picks s).front = (bfs_level g picks s).rear := rfl

/-- After `front = rear` nothing is left between `front` and `rear`. -/
theorem bfs_level_frontier (g : Graph) (picks : List Nat) (s : BfsState) :
    (bfs_level g picks s).frontier = [] := by
  simp [BfsState.frontier, bfs_level]

theorem bfs_loop_done (g : Graph) (sched : Nat → List Nat) (fuel k : Nat) (s : BfsState)
    (h : ¬ s.front < s.rear) : bfs_loop g sched fuel k s = some (s, k) := by
  unfold bfs_loop
  simp [h]

theorem bfs_loop_step (g : Graph) (sched : Nat → List Nat) (fuel k : Nat) (s : BfsState)
    (h : s.front < s.rear) :
    bfs_loop g sched (fuel + 1) k s = bfs_loop g sched fuel (k + 1) (bfs_level g (sched k) s) := by
  rw [bfs_loop]
  simp [h]

/-- The loop guard holds once: after the first round `front` equals `rear`. -/
theorem bfs_run_eq (g : Graph) (start_vertex : Nat) (visited : List Nat)
    (sched : Nat → List Nat) (fuel : Nat) :
    bfs_run g start_vertex visited sched (fuel + 1) =
      some (bfs_level g (sched 0) (bfs_init start_vertex visited), 1) := by
  unfold bfs_run
  rw [bfs_loop_step g sched fuel 0 _ (by simp [bfs_init, BfsState.rear])]
  exact bfs_loop_done g sched fuel 1 _ (by rw [bfs_level_front]; exact lt_irrefl _)

theorem level_events_init (g : Graph) (picks : List Nat) (start_vertex : Nat)
    (visited : List Nat) :
    level_events g picks (bfs_init start_vertex visited) = neighbors g start_vertex := by
  simp [level_events, bfs_init, BfsState.frontier, interleave_single]

theorem bfs_rounds_one (g : Graph) (sched : Nat → List Nat) (start_vertex : Nat)
    (visited : List Nat) :
    bfs_rounds g sched (bfs_init start_vertex visited) 1 =
      bfs_level g (sched 0) (bfs_init start_vertex visited) := by
  simp [bfs_rounds, bfs_init, BfsState.rear]

/-- Inside any level the marks do not depend on the picks. -/
theorem bfs_level_visited_picks (g : Graph) (p1 p2 : List Nat) (s : BfsState) :
    (bfs_level g p1 s).visited = (bfs_level g p2 s).visited := by
  unfold bfs_level
  exact expand_fst_congr _ _ _ _ _ (fun v => by
    rw [mem_level_events, mem_level_events])

theorem sound_init (g : Graph) (start_vertex : Nat) (visited : List Nat)
    (hz : ∀ x ∈ visited, x = 0) :
    Sound g start_vertex (bfs_init start_vertex visited).queue
      (bfs_init start_vertex visited).visited := by
  constructor
  · intro v hv
    simp only [bfs_init, List.mem_singleton] at hv
    rw [hv]
    exact Reach.refl
  · intro v hv
    simp only [bfs_init, getD_set_eq] at hv
    split at hv
    · rename_i hc
      rw [hc.1]
      exact Reach.refl
    · exact absurd (getD_zero_of_all_zero visited hz v) hv

theorem sound_expand (g : Graph) (start_vertex : Nat) (queue visited evs : List Nat)
    (hs : Sound g start_vertex queue visited)
    (he : ∀ a ∈ evs, ∃ u ∈ queue, a ∈ neighbors g u) :
    Sound g start_vertex (expand (visited, queue) evs).2 (expand (visited, queue) evs).1 := by
  have h := expand_sound (Reach g start_vertex) evs (visited, queue)
    (fun a ha => by
      obtain ⟨u, hu, hau⟩ := he a ha
      exact Reach.step u a (hs.1 u hu) hau)
    hs.2 hs.1
  exact ⟨h.2, h.1⟩

theorem sound_bfs_rounds (g : Graph) (sched : Nat → List Nat) (start_vertex : Nat)
    (visited : List Nat) (hz : ∀ x ∈ visited, x = 0) (k : Nat) :
    Sound g start_vertex (bfs_rounds g sched (bfs_init start_vertex visited) k).queue
      (bfs_rounds g sched (bfs_init start_vertex visited) k).visited := by
  induction k with
  | zero => exact sound_init g start_vertex visited hz
  | succ k ih =>
    simp only [bfs_rounds]
    split
    · exact sound_expand g start_vertex _ _ _ ih (fun a ha => by
        obtain ⟨u, hu, hau⟩ := (mem_level_events g _ _ a).mp ha
        exact ⟨u, List.mem_of_mem_drop hu, hau⟩)
    · exact ih

theorem sound_bfs_point (g : Graph) (sched : Nat → List Nat) (start_vertex : Nat)
    (visited : List Nat) (hz : ∀ x ∈ visited, x = 0) (k m : Nat) :
    Sound g start_vertex (bfs_point g sched (bfs_init start_vertex visited) k m).queue
      (bfs_point g sched (bfs_init start_vertex visited) k m).visited := by
  exact sound_expand g start_vertex _ _ _ (sound_bfs_rounds g sched start_vertex visited hz k)
    (fun a ha => by
      obtain ⟨u, hu, hau⟩ := (mem_level_events g _ _ a).mp (List.mem_of_mem_take ha)
      exact ⟨u, List.mem_of_mem_drop hu, hau⟩)

/-! ## Message-passing engine -/

theorem getD_set_gen {α : Type} (l : List α) (a v : Nat) (x d : α) :
    (l.set a x).getD v d = if v = a ∧ a < l.length then x else l.getD v d := by
  simp only [List.getD_eq_getElem?_getD, List.getElem?_set]
  by_cases h : a = v
  · subst h
    by_cases h2 : a < l.length
    · simp [h2]
    · have h3 : l[a]? = none := by simp; omega
      simp [h2, h3]
  · have h2 : ¬ v = a := fun e => h e.symm
    simp [h, h2]

theorem getD_map_range {α : Type} (n : Nat) (f : Nat → α) (r : Nat) (d : α) :
    ((List.range n).map f).getD r d = if r < n then f r else d := by
  simp only [List.getD_eq_getElem?_getD, List.getElem?_map]
  by_cases h : r < n
  · simp [List.getElem?_range h, h]
  · have h3 : (List.range n)[r]? = none := by simp; omega
    simp [h, h3]

theorem mem_stride_lt (size rear : Nat) (fuel i j : Nat)
    (h : i ∈ stride_from size rear fuel j) : i < rear := by
  induction fuel generalizing j with
  | zero => simp [stride_from] at h
  | succ fuel ih =>
    unfold stride_from at h
    split at h
    · rcases List.mem_cons.mp h with h1 | h1
      · rw [h1]; assumption
      · exact ih _ h1
    · cases h

theorem mem_stride_of (size rear : Nat) (hs : 1 ≤ size) (t fuel j : Nat)
    (h : j + t * size < rear) (hf : rear - j ≤ fuel) :
    j + t * size ∈ stride_from size rear fuel j := by
  induction t generalizing fuel j with
  | zero =>
    cases fuel with
    | zero => omega
    | succ fuel =>
      unfold stride_from
      have hj : j < rear := by omega
      simp [hj]
  | succ t ih =>
    have hj : j < rear := by
      have : 0 ≤ (t + 1) * size := Nat.zero_le _
      omega
    cases fuel with
    | zero => omega
    | succ fuel =>
      unfold stride_from
      rw [if_pos hj]
      apply List.mem_cons_of_mem
      have e : j + (t + 1) * size = (j + size) + t * size := by ring
      rw [e]
      exact ih fuel (j + size) (by rw [← e]; exact h) (by omega)

/-- With `front = 0` queue index `i` belongs to the slice of rank `i % size`. -/
theorem mem_rank_slice (size rear i : Nat) (hs : 1 ≤ size) (hi : i < rear) :
    i ∈ rank_slice 0 (i % size) size rear := by
  unfold rank_slice
  have e : 0 + i % size + (i / size) * size = i := by
    have := Nat.mod_add_div i size
    rw [Nat.mul_comm] at this
    omega
  have h := mem_stride_of size rear hs (i / size) (rear - (0 + i % size)) (0 + i % size)
    (by rw [e]; exact hi) (le_refl _)
  rw [e] at h
  exact h

theorem neighbors_lt (g : Graph) (hw : g.WellFormed) (u a : Nat) (h : a ∈ neighbors g u) :
    a < g.num_vertices := by
  unfold neighbors at h
  rw [List.getD_eq_getElem?_getD] at h
  cases hu : g.adj_lists[u]? with
  | none => simp [hu] at h
  | some l =>
    simp only [hu, Option.getD_some] at h
    exact hw.2 l (List.mem_iff_getElem?.mpr ⟨u, hu⟩) a h

theorem mem_rank_events (g : Graph) (queue : List Nat) (front rank size a : Nat)
    (h : a ∈ rank_events g queue front rank size) :
    ∃ u ∈ queue, a ∈ neighbors g u := by
  unfold rank_events at h
  obtain ⟨i, hi, ha⟩ := List.mem_flatMap.mp h
  have hlt : i < queue.length := mem_stride_lt _ _ _ _ _ hi
  refine ⟨queue.getD i 0, ?_, ha⟩
  rw [List.getD_eq_getElem _ _ hlt]
  exact List.getElem_mem _

theorem mpi_round_front (size : Nat) (graphs : Nat → Graph) (s : MpiState) :
    (mpi_round size graphs s).front = s.front := rfl

theorem mpi_round_queue (size : Nat) (graphs : Nat → Graph) (s : MpiState) :
    (mpi_round size graphs s).queue = s.queue ++ ((List.range size).map (fun rank =>
      (rank_expand (graphs rank) s.queue s.front rank size (s.visited.getD rank [])).2)).flatten := by
  simp [mpi_round, List.map_map, Function.comp_def]

theorem mpi_round_visited (size : Nat) (graphs : Nat → Graph) (s : MpiState) (r : Nat) :
    (mpi_round size graphs s).visited.getD r [] =
      if r < size then
        (rank_expand (graphs r) s.queue s.front r size (s.visited.getD r [])).1
      else [] := by
  simp only [mpi_round, List.map_map, Function.comp_def]
  exact getD_map_range size _ r []

theorem zero_visited_getD (size n r : Nat) :
    (zero_visited size n).getD r [] = if r < size then List.replicate n 0 else [] := by
  unfold zero_visited
  simp only [List.getD_eq_getElem?_getD, List.getElem?_replicate]
  split <;> rfl

theorem mpi_init_visited (size n start_vertex r : Nat) (hs : 1 ≤ size) :
    (mpi_init start_vertex (zero_visited size n)).visited.getD r [] =
      if r = 0 then (List.replicate n 0).set start_vertex 1
      else if r < size then List.replicate n 0 else [] := by
  simp only [mpi_init, getD_set_gen, zero_visited_getD]
  have hl : (zero_visited size n).length = size := by simp [zero_visited]
  by_cases h : r = 0
  · subst h
    have h0 : 0 < size := hs
    simp [hl, h0]
  · simp [h]

theorem sum_range_single (size : Nat) (hs : 1 ≤ size) (f : Nat → Nat)
    (h : ∀ r, r ≠ 0 → f r = 0) : ((List.range size).map f).sum = f 0 := by
  obtain ⟨m, rfl⟩ : ∃ m, size = m + 1 := ⟨size - 1, by omega⟩
  rw [List.range_succ_eq_map, List.map_cons, List.sum_cons, List.map_map]
  rw [List.sum_eq_zero]
  · rfl
  · intro x hx
    obtain ⟨r, _, rfl⟩ := List.mem_map.mp hx
    exact h (r + 1) (Nat.succ_ne_zero r)

theorem mpi_inv_init (size n start_vertex : Nat) (hs : 1 ≤ size) (hst : start_vertex < n) :
    MpiInv size n (mpi_init start_vertex (zero_visited size n)) := by
  refine ⟨rfl, ?_, ?_, ?_, ?_, ?_⟩
  · simp [mpi_init, zero_visited]
  · intro r hr
    rw [mpi_init_visited size n start_vertex r hs]
    split
    · simp
    · simp [hr]
  · intro r v
    rw [mpi_init_visited size n start_vertex r hs]
    split
    · rw [getD_set_eq]
      split
      · exact le_refl 1
      · rw [getD_replicate_zero]; exact Nat.zero_le 1
    · split
      · rw [getD_replicate_zero]; exact Nat.zero_le 1
      · simp
  · intro v hv
    simp only [mpi_init, List.mem_singleton] at hv
    rw [hv]; exact hst
  · intro v
    rw [sum_range_single size hs]
    · rw [mpi_init_visited size n start_vertex 0 hs, if_pos rfl, getD_set_eq, getD_replicate_zero]
      simp only [mpi_init, List.length_replicate, hst, and_true]
      by_cases hv : v = start_vertex
      · subst hv; simp
      · have hv2 : ¬ start_vertex = v := fun e => hv e.symm
        simp [hv, hv2]
    · intro r hr
      rw [mpi_init_visited size n start_vertex r hs, if_neg hr]
      split
      · exact getD_replicate_zero n v
      · simp

theorem rank_events_lt (g : Graph) (hw : g.WellFormed) (queue : List Nat)
    (front rank size a : Nat) (h : a ∈ rank_events g queue front rank size) :
    a < g.num_vertices := by
  obtain ⟨u, _, hau⟩ := mem_rank_events g queue front rank size a h
  exact neighbors_lt g hw u a hau

theorem getD_ne_zero_lt (l : List Nat) (v : Nat) (h : l.getD v 0 ≠ 0) : v < l.length := by
  by_contra hc
  apply h
  rw [List.getD_eq_getElem?_getD]
  have : l[v]? = none := by simp; omega
  simp [this]

/-- The invariant survives a round when all ranks hold the same well-formed graph. -/
theorem mpi_inv_round (size : Nat) (g : Graph) (hw : g.WellFormed) (s : MpiState)
    (h : MpiInv size g.num_vertices s) :
    MpiInv size g.num_vertices (mpi_round size (fun _ => g) s) := by
  obtain ⟨h1, h2, h3, h4, h5, h6⟩ := h
  refine ⟨h1, ?_, ?_, ?_, ?_, ?_⟩
  · simp [mpi_round]
  · intro r hr
    rw [mpi_round_visited, if_pos hr]
    unfold rank_expand
    rw [expand_fst_length]
    exact h3 r hr
  · intro r v
    rw [mpi_round_visited]
    split
    · unfold rank_expand
      exact expand_le_one _ _ (h4 r) v
    · simp
  · intro v hv
    rw [mpi_round_queue] at hv
    rcases List.mem_append.mp hv with hv | hv
    · exact h5 v hv
    · obtain ⟨l, hl, hvl⟩ := List.mem_flatten.mp hv
      obtain ⟨r, _, rfl⟩ := List.mem_map.mp hl
      unfold rank_expand at hvl
      exact (expand_sound (fun x => x < g.num_vertices) _ (s.visited.getD r [], [])
        (fun a ha => rank_events_lt g hw _ _ _ _ a ha)
        (fun x hx => by
          have hlt := getD_ne_zero_lt _ x hx
          by_cases hr : r < size
          · rw [h3 r hr] at hlt; exact hlt
          · have e : s.visited.getD r [] = [] := by
              rw [List.getD_eq_getElem?_getD]
              have : s.visited[r]? = none := by simp; omega
              simp [this]
            rw [e] at hlt
            simp at hlt)
        (fun x hx => by cases hx)).2 v hvl
  · intro v
    rw [mpi_round_queue, List.count_append, List.count_flatten, List.map_map, h6 v,
      ← List.sum_map_add]
    congr 1
    apply List.map_congr_left
    intro r hr
    have hr2 : r < size := List.mem_range.mp hr
    rw [mpi_round_visited, if_pos hr2]
    unfold rank_expand
    have hc := expand_count (rank_events g s.queue s.front r size) (s.visited.getD r [], [])
      (fun a ha => by
        show a < (s.visited.getD r []).length
        rw [h3 r hr2]
        exact rank_events_lt g hw _ _ _ _ a ha) v
    simp only [List.count_nil, Nat.add_zero] at hc
    simp only [Function.comp_def]
    exact hc.symm

theorem mpi_inv_rounds (size : Nat) (g : Graph) (hw : g.WellFormed) (start_vertex : Nat)
    (hs : 1 ≤ size) (hst : start_vertex < g.num_vertices) (k : Nat) :
    MpiInv size g.num_vertices
      (mpi_rounds size (fun _ => g) (mpi_init start_vertex (zero_visited size g.num_vertices)) k) := by
  induction k with
  | zero => exact mpi_inv_init size g.num_vertices start_vertex hs hst
  | succ k ih => exact mpi_inv_round size g hw _ ih

/-- A list of vertex ids below `n` in which no id occurs more than `c` times
has at most `c * n` entries. -/
theorem length_le_of_count_le (c : Nat) (n : Nat) (l : List Nat)
    (hl : ∀ v ∈ l, v < n) (hc : ∀ v, l.count v ≤ c) : l.length ≤ c * n := by
  induction n generalizing l with
  | zero =>
    cases l with
    | nil => simp
    | cons a l => exact absurd (hl a (List.mem_cons_self _ _)) (Nat.not_lt_zero a)
  | succ n ih =>
    rw [List.length_eq_countP_add_countP (fun x => x == n) l, ← List.count_eq_countP,
      List.countP_eq_length_filter]
    have h1 := hc n
    have h2 := ih (l.filter (fun a => decide ¬ (a == n) = true))
      (fun v hv => by
        obtain ⟨hv1, hv2⟩ := List.mem_filter.mp hv
        have := hl v hv1
        simp at hv2
        omega)
      (fun v => le_trans ((List.filter_sublist l).count_le v) (hc v))
    rw [Nat.mul_succ]
    omega

theorem mpi_count_le (size n : Nat) (s : MpiState) (h : MpiInv size n s) (v : Nat) :
    s.queue.count v ≤ size := by
  obtain ⟨_, _, _, h4, _, h6⟩ := h
  rw [h6 v]
  have := List.sum_le_card_nsmul
    ((List.range size).map (fun r => (s.visited.getD r []).getD v 0)) 1
    (fun x hx => by
      obtain ⟨r, _, rfl⟩ := List.mem_map.mp hx
      exact h4 r v)
  simpa using this

theorem mpi_rear_le (size n : Nat) (s : MpiState) (h : MpiInv size n s) :
    s.rear ≤ size * n :=
  length_le_of_count_le size n s.queue h.2.2.2.2.1 (mpi_count_le size n s h)

/-- A vertex is in the queue exactly when some rank has marked it. -/
theorem mpi_mem_queue_iff (size n : Nat) (s : MpiState) (h : MpiInv size n s) (v : Nat) :
    v ∈ s.queue ↔ ∃ r, r < size ∧ (s.visited.getD r []).getD v 0 = 1 := by
  obtain ⟨_, _, _, h4, _, h6⟩ := h
  rw [← List.count_pos_iff, h6 v]
  constructor
  · intro hp
    by_contra hc
    have hz : ((List.range size).map (fun r => (s.visited.getD r []).getD v 0)).sum = 0 := by
      apply List.sum_eq_zero
      intro x hx
      obtain ⟨r, hr, rfl⟩ := List.mem_map.mp hx
      have h1 := h4 r v
      have h2 : ¬ (s.visited.getD r []).getD v 0 = 1 :=
        fun e => hc ⟨r, List.mem_range.mp hr, e⟩
      omega
    omega
  · rintro ⟨r, hr, h1⟩
    have := List.le_sum_of_mem (List.mem_map.mpr ⟨r, List.mem_range.mpr hr, rfl⟩ :
      (s.visited.getD r []).getD v 0 ∈
        (List.range size).map (fun r => (s.visited.getD r []).getD v 0))
    omega

/-- Queue entries and the marks of every rank are reachable from the start vertex. -/
theorem msound_init (g : Graph) (start_vertex : Nat) (visited : List (List Nat))
    (hz : ∀ l ∈ visited, ∀ x ∈ l, x = 0) :
    (∀ v ∈ (mpi_init start_vertex visited).queue, Reach g start_vertex v) ∧
    ∀ r v, ((mpi_init start_vertex visited).visited.getD r []).getD v 0 ≠ 0 →
      Reach g start_vertex v := by
  have hz2 : ∀ r v, (visited.getD r []).getD v 0 = 0 := by
    intro r v
    apply getD_zero_of_all_zero
    rw [List.getD_eq_getElem?_getD]
    cases hr : visited[r]? with
    | none => intro x hx; simp at hx
    | some l =>
      simp only [Option.getD_some]
      exact hz l (List.mem_iff_getElem?.mpr ⟨r, hr⟩)
  constructor
  · intro v hv
    simp only [mpi_init, List.mem_singleton] at hv
    rw [hv]; exact Reach.refl
  · intro r v hv
    simp only [mpi_init, getD_set_gen] at hv
    split at hv
    · rw [getD_set_eq] at hv
      split at hv
      · rename_i hc
        rw [hc.1]; exact Reach.refl
      · exact absurd (hz2 0 v) hv
    · exact absurd (hz2 r v) hv

theorem msound_rank (g : Graph) (start_vertex : Nat) (queue visited : List Nat)
    (front rank size : Nat) (evs : List Nat)
    (he : ∀ a ∈ evs, a ∈ rank_events g queue front rank size)
    (hq : ∀ v ∈ queue, Reach g start_vertex v)
    (hv : ∀ v, visited.getD v 0 ≠ 0 → Reach g start_vertex v) :
    (∀ v, (expand (visited, []) evs).1.getD v 0 ≠ 0 → Reach g start_vertex v) ∧
    ∀ v ∈ (expand (visited, []) evs).2, Reach g start_vertex v :=
  expand_sound (Reach g start_vertex) evs (visited, [])
    (fun a ha => by
      obtain ⟨u, hu, hau⟩ := mem_rank_events g queue front rank size a (he a ha)
      exact Reach.step u a (hq u hu) hau)
    hv (fun x hx => by cases hx)

theorem msound_rounds (size : Nat) (g : Graph) (start_vertex : Nat) (visited : List (List Nat))
    (hz : ∀ l ∈ visited, ∀ x ∈ l, x = 0) (k : Nat) :
    (∀ v ∈ (mpi_rounds size (fun _ => g) (mpi_init start_vertex visited) k).queue,
      Reach g start_vertex v) ∧
    ∀ r v, ((mpi_rounds size (fun _ => g) (mpi_init start_vertex visited) k).visited.getD r
      []).getD v 0 ≠ 0 → Reach g start_vertex v := by
  induction k with
  | zero => exact msound_init g start_vertex visited hz
  | succ k ih =>
    simp only [mpi_rounds]
    constructor
    · intro v hv
      rw [mpi_round_queue] at hv
      rcases List.mem_append.mp hv with hv | hv
      · exact ih.1 v hv
      · obtain ⟨l, hl, hvl⟩ := List.mem_flatten.mp hv
        obtain ⟨r, _, rfl⟩ := List.mem_map.mp hl
        exact (msound_rank g start_vertex _ _ _ r size _ (fun a ha => ha) ih.1 (ih.2 r)).2 v hvl
    · intro r v hv
      rw [mpi_round_visited] at hv
      split at hv
      · exact (msound_rank g start_vertex _ _ _ r size _ (fun a ha => ha) ih.1 (ih.2 r)).1 v hv
      · simp at hv

theorem mpi_rounds_front (size : Nat) (graphs : Nat → Graph) (s0 : MpiState) (k : Nat) :
    (mpi_rounds size graphs s0 k).front = s0.front := by
  induction k with
  | zero => rfl
  | succ k ih => simp only [mpi_rounds, mpi_round_front, ih]

theorem mpi_rounds_queue_grows (size : Nat) (graphs : Nat → Graph) (s0 : MpiState) (k : Nat) :
    ∃ t, (mpi_rounds size graphs s0 k).queue = s0.queue ++ t := by
  induction k with
  | zero => exact ⟨[], by simp [mpi_rounds]⟩
  | succ k ih =>
    obtain ⟨t, ht⟩ := ih
    simp only [mpi_rounds]
    rw [mpi_round_queue, ht, List.append_assoc]
    exact ⟨_, rfl⟩

/-- The exit test `rear == front` fails in every round: `front` stays 0 and
the queue holds at least the start vertex. -/
theorem mpi_loop_none (size : Nat) (graphs : Nat → Graph) (fuel : Nat) (s : MpiState)
    (hf : s.front = 0) (hq : s.queue ≠ []) : mpi_loop size graphs fuel s = none := by
  induction fuel generalizing s with
  | zero =>
    unfold mpi_loop
    have : ¬ s.rear = s.front := by
      rw [hf]; unfold MpiState.rear
      exact fun e => hq (List.length_eq_zero.mp e)
    simp [this]
  | succ fuel ih =>
    rw [mpi_loop]
    have : ¬ s.rear = s.front := by
      rw [hf]; unfold MpiState.rear
      exact fun e => hq (List.length_eq_zero.mp e)
    simp only [this, if_false]
    apply ih
    · rw [mpi_round_front]; exact hf
    · rw [mpi_round_queue]
      intro e
      exact hq (List.append_eq_nil.mp e).1

theorem bfs_mpi_none (size : Nat) (graphs : Nat → Graph) (start_vertex : Nat)
    (visited : List (List Nat)) (fuel : Nat) :
    bfs_mpi size graphs start_vertex visited fuel = none :=
  mpi_loop_none size graphs fuel _ rfl (by simp [mpi_init])

/-- When a round appends nothing, the queue is closed under adjacency. -/
theorem mpi_fixpoint_closed (size : Nat) (g : Graph) (hw : g.WellFormed) (hs : 1 ≤ size)
    (s : MpiState) (h : MpiInv size g.num_vertices s)
    (hfix : (mpi_round size (fun _ => g) s).queue = s.queue)
    (u : Nat) (hu : u ∈ s.queue) (a : Nat) (ha : a ∈ neighbors g u) : a ∈ s.queue := by
  obtain ⟨i, hi, rfl⟩ := List.mem_iff_getElem.mp hu
  have hr : i % size < size := Nat.mod_lt i hs
  have hev : a ∈ rank_events g s.queue s.front (i % size) size := by
    unfold rank_events
    rw [h.1]
    refine List.mem_flatMap.mpr ⟨i, mem_rank_slice size s.queue.length i hs hi, ?_⟩
    rw [List.getD_eq_getElem _ _ hi]
    exact ha
  have hloc : (rank_expand g s.queue s.front (i % size) size
      (s.visited.getD (i % size) [])).2 = [] := by
    rw [mpi_round_queue, List.append_right_eq_self, List.flatten_eq_nil_iff] at hfix
    exact hfix _ (List.mem_map.mpr ⟨i % size, List.mem_range.mpr hr, rfl⟩)
  have hlen : ∀ b ∈ rank_events g s.queue s.front (i % size) size,
      b < (s.visited.getD (i % size) [], ([] : List Nat)).1.length := by
    intro b hb
    show b < (s.visited.getD (i % size) []).length
    rw [h.2.2.1 _ hr]
    exact rank_events_lt g hw _ _ _ _ b hb
  have hc := expand_count _ (s.visited.getD (i % size) [], []) hlen a
  have hm := expand_marks _ (s.visited.getD (i % size) [], []) hlen a hev
  unfold rank_expand at hloc
  rw [hloc] at hc
  simp only [List.count_nil, Nat.add_zero] at hc
  rw [hc] at hm
  have h1 := h.2.2.2.1 (i % size) a
  exact (mpi_mem_queue_iff size g.num_vertices s h a).mpr ⟨i % size, hr, by omega⟩

theorem mpi_fixpoint_reach (size : Nat) (g : Graph) (hw : g.WellFormed) (hs : 1 ≤ size)
    (s : MpiState) (h : MpiInv size g.num_vertices s)
    (hfix : (mpi_round size (fun _ => g) s).queue = s.queue)
    (start_vertex : Nat) (hst : start_vertex ∈ s.queue) (v : Nat)
    (hv : Reach g start_vertex v) : v ∈ s.queue := by
  induction hv with
  | refl => exact hst
  | step u v _ huv ih => exact mpi_fixpoint_closed size g hw hs s h hfix u ih v huv

/-- As long as every round appends something, the queue has outgrown the
number of rounds. -/
theorem mpi_rear_grows (size : Nat) (graphs : Nat → Graph) (s0 : MpiState)
    (h0 : 1 ≤ s0.queue.length) (m : Nat)
    (h : ∀ k, k < m →
      (mpi_rounds size graphs s0 (k + 1)).queue ≠ (mpi_rounds size graphs s0 k).queue) :
    m + 1 ≤ (mpi_rounds size graphs s0 m).queue.length := by
  induction m with
  | zero => simpa [mpi_rounds] using h0
  | succ m ih =>
    have h1 := ih (fun k hk => h k (Nat.lt_succ_of_lt hk))
    have h2 := h m (Nat.lt_succ_self m)
    simp only [mpi_rounds] at h2 ⊢
    rw [mpi_round_queue] at h2 ⊢
    rw [List.length_append]
    have h3 : ((List.range size).map (fun rank =>
        (rank_expand (graphs rank) (mpi_rounds size graphs s0 m).queue
          (mpi_rounds size graphs s0 m).front rank size
          ((mpi_rounds size graphs s0 m).visited.getD rank [])).2)).flatten ≠ [] :=
      fun e => h2 (by rw [e, List.append_nil])
    have h4 := List.length_pos.mpr h3
    omega

/-- Some round within the first `size * num_vertices` appends nothing. -/
theorem mpi_fixpoint_exists (size : Nat) (g : Graph) (hw : g.WellFormed) (start_vertex : Nat)
    (hs : 1 ≤ size) (hst : start_vertex < g.num_vertices) :
    ∃ k, k < size * g.num_vertices ∧
      (mpi_rounds size (fun _ => g)
        (mpi_init start_vertex (zero_visited size g.num_vertices)) (k + 1)).queue =
      (mpi_rounds size (fun _ => g)
        (mpi_init start_vertex (zero_visited size g.num_vertices)) k).queue := by
  by_contra hc
  have hall : ∀ k, k < size * g.num_vertices →
      (mpi_rounds size (fun _ => g)
        (mpi_init start_vertex (zero_visited size g.num_vertices)) (k + 1)).queue ≠
      (mpi_rounds size (fun _ => g)
        (mpi_init start_vertex (zero_visited size g.num_vertices)) k).queue :=
    fun k hk e => hc ⟨k, hk, e⟩
  have h1 := mpi_rear_grows size (fun _ => g) _ (by simp [mpi_init]) _ hall
  have h2 := mpi_rear_le size g.num_vertices _
    (mpi_inv_rounds size g hw start_vertex hs hst (size * g.num_vertices))
  unfold MpiState.rear at h2
  omega

/-! ## Graph construction -/

theorem add_edge_length (g : Graph) (u v : Nat) :
    (add_edge g u v).adj_lists.length = g.adj_lists.length := by
  simp [add_edge]

theorem neighbors_add_edge (g : Graph) (u v w : Nat)
    (hu : u < g.adj_lists.length) (hv : v < g.adj_lists.length) :
    neighbors (add_edge g u v) w =
      (if w = v then [u] else []) ++ (if w = u then [v] else []) ++ neighbors g w := by
  unfold neighbors add_edge create_node
  simp only [getD_set_gen, List.length_set, hu, hv, and_true]
  by_cases h1 : w = v
  · by_cases h2 : v = u
    · subst h1; subst h2; simp
    · subst h1; simp [h2]
  · by_cases h2 : w = u
    · subst h2
      have h3 : ¬ v = w := fun e => h1 e.symm
      simp [h1, h3]
    · simp [h1, h2]

theorem count_ite_single (c : Prop) [Decidable c] (x b : Nat) :
    (if c then [x] else []).count b = if c ∧ x = b then 1 else 0 := by
  by_cases h : c
  · by_cases h2 : x = b
    · simp [h, h2]
    · simp [h, h2, List.count_cons]
  · simp [h]

theorem built_length (g : Graph) (h : Built g) : g.adj_lists.length = g.num_vertices := by
  induction h with
  | create n => simp [create_graph]
  | add g u v _ _ _ ih => rw [add_edge_length, ih]; rfl

theorem neighbors_create_graph (n w : Nat) : neighbors (create_graph n) w = [] := by
  unfold neighbors create_graph
  simp only [List.getD_eq_getElem?_getD, List.getElem?_replicate]
  split <;> rfl

theorem built_count_symm (g : Graph) (h : Built g) (a b : Nat) :
    (neighbors g a).count b = (neighbors g b).count a := by
  induction h with
  | create n => simp [neighbors_create_graph]
  | add g u v hb hu hv ih =>
    have hl := built_length g hb
    rw [neighbors_add_edge g u v a (by omega) (by omega),
      neighbors_add_edge g u v b (by omega) (by omega)]
    simp only [List.count_append, ih, count_ite_single]
    have e1 : (a = v ∧ u = b) ↔ (b = u ∧ v = a) :=
      ⟨fun h => ⟨h.2.symm, h.1.symm⟩, fun h => ⟨h.2.symm, h.1.symm⟩⟩
    have e2 : (a = u ∧ v = b) ↔ (b = v ∧ u = a) :=
      ⟨fun h => ⟨h.2.symm, h.1.symm⟩, fun h => ⟨h.2.symm, h.1.symm⟩⟩
    simp only [e1, e2]
    omega

/-! ## Marks and queue of the shared-memory engine -/

theorem omp_inv_init (n start_vertex : Nat) (hst : start_vertex < n) :
    OmpInv n (bfs_init start_vertex (List.replicate n 0)).queue
      (bfs_init start_vertex (List.replicate n 0)).visited := by
  refine ⟨by simp [bfs_init], ?_, ?_, ?_⟩
  · intro v
    simp only [bfs_init, getD_set_eq, getD_replicate_zero]
    split
    · exact le_refl 1
    · exact Nat.zero_le 1
  · intro v hv
    simp only [bfs_init, List.mem_singleton] at hv
    rw [hv]; exact hst
  · intro v
    simp only [bfs_init, getD_set_eq, getD_replicate_zero, List.length_replicate, hst, and_true]
    by_cases hv : v = start_vertex
    · subst hv; simp
    · have hv2 : ¬ start_vertex = v := fun e => hv e.symm
      simp [hv, hv2, List.count_cons]

theorem omp_inv_expand (n : Nat) (queue visited evs : List Nat) (h : OmpInv n queue visited)
    (he : ∀ a ∈ evs, a < n) :
    OmpInv n (expand (visited, queue) evs).2 (expand (visited, queue) evs).1 := by
  obtain ⟨h1, h2, h3, h4⟩ := h
  refine ⟨by rw [expand_fst_length]; exact h1, expand_le_one evs _ h2, ?_, ?_⟩
  · exact (expand_sound (fun x => x < n) evs (visited, queue) he
      (fun x hx => by
        have := getD_ne_zero_lt visited x hx
        omega) h3).2
  · intro v
    have hc := expand_count evs (visited, queue)
      (fun a ha => by
        show a < visited.length
        rw [h1]; exact he a ha) v
    have h5 := h4 v
    simp only at hc
    omega

theorem level_events_lt (g : Graph) (hw : g.WellFormed) (picks : List Nat) (s : BfsState)
    (a : Nat) (h : a ∈ level_events g picks s) : a < g.num_vertices := by
  obtain ⟨u, _, hau⟩ := (mem_level_events g picks s a).mp h
  exact neighbors_lt g hw u a hau

theorem omp_inv_rounds (g : Graph) (hw : g.WellFormed) (sched : Nat → List Nat)
    (start_vertex : Nat) (hst : start_vertex < g.num_vertices) (k : Nat) :
    OmpInv g.num_vertices
      (bfs_rounds g sched (bfs_init start_vertex (List.replicate g.num_vertices 0)) k).queue
      (bfs_rounds g sched (bfs_init start_vertex (List.replicate g.num_vertices 0)) k).visited := by
  induction k with
  | zero => exact omp_inv_init g.num_vertices start_vertex hst
  | succ k ih =>
    simp only [bfs_rounds]
    split
    · exact omp_inv_expand _ _ _ _ ih (fun a ha => level_events_lt g hw _ _ a ha)
    · exact ih

/-- At every point of a run no vertex id occurs twice in `queue[0..rear)`,
`rear` is at most `num_vertices`, and the queue holds exactly the marked
vertices. -/
theorem bfs_point_nodup (g : Graph) (hw : g.WellFormed) (sched : Nat → List Nat)
    (start_vertex : Nat) (hst : start_vertex < g.num_vertices) (k m : Nat) :
    (bfs_point g sched (bfs_init start_vertex (List.replicate g.num_vertices 0)) k m).queue.Nodup ∧
    (bfs_point g sched (bfs_init start_vertex (List.replicate g.num_vertices 0)) k m).rear
      ≤ g.num_vertices ∧
    ∀ v, v ∈ (bfs_point g sched (bfs_init start_vertex
        (List.replicate g.num_vertices 0)) k m).queue ↔
      (bfs_point g sched (bfs_init start_vertex
        (List.replicate g.num_vertices 0)) k m).visited.getD v 0 = 1 := by
  have h : OmpInv g.num_vertices
      (bfs_point g sched (bfs_init start_vertex (List.replicate g.num_vertices 0)) k m).queue
      (bfs_point g sched (bfs_init start_vertex (List.replicate g.num_vertices 0)) k m).visited :=
    omp_inv_expand _ _ _ _ (omp_inv_rounds g hw sched start_vertex hst k)
      (fun a ha => level_events_lt g hw _ _ a (List.mem_of_mem_take ha))
  obtain ⟨_, h2, h3, h4⟩ := h
  have hc : ∀ v, (bfs_point g sched (bfs_init start_vertex
      (List.replicate g.num_vertices 0)) k m).queue.count v ≤ 1 := fun v => by
    rw [h4 v]; exact h2 v
  refine ⟨List.nodup_iff_count_le_one.mpr hc, ?_, ?_⟩
  · have := length_le_of_count_le 1 g.num_vertices _ h3 hc
    unfold BfsState.rear
    omega
  · intro v
    rw [← List.count_pos_iff, h4 v]
    have := h2 v
    omega

/-- What `bfs_parallel` returns on a fresh array: the start vertex and its
neighbours are marked, nothing else. -/
theorem bfs_parallel_marks (g : Graph) (start_vertex : Nat) (sched : Nat → List Nat)
    (fuel : Nat) (hst : start_vertex < g.num_vertices) :
    ∃ vis, bfs_parallel g start_vertex (List.replicate g.num_vertices 0) sched (fuel + 1)
        = some vis ∧
      ∀ v, v < g.num_vertices →
        (vis.getD v 0 = 1 ↔ v = start_vertex ∨ v ∈ neighbors g start_vertex) ∧
        (vis.getD v 0 = 0 ↔ ¬ (v = start_vertex ∨ v ∈ neighbors g start_vertex)) := by
  refine ⟨_, by unfold bfs_parallel; rw [bfs_run_eq]; rfl, ?_⟩
  intro v hv
  simp only [bfs_level, level_events_init, expand_getD]
  simp only [bfs_init, getD_set_eq, getD_replicate_zero, List.length_set, List.length_replicate,
    hst, hv, and_true, true_and]
  by_cases h1 : v = start_vertex
  · simp [h1]
  · by_cases h2 : v ∈ neighbors g start_vertex
    · simp [h1, h2]
    · simp [h1, h2]

/-! ## The claims -/

theorem scenarioA_reach : Reach scenarioA 0 0 ∧ Reach scenarioA 0 1 ∧ Reach scenarioA 0 2 ∧
    Reach scenarioA 0 3 ∧ Reach scenarioA 0 4 := by
  have h0 : Reach scenarioA 0 0 := Reach.refl
  have h1 : Reach scenarioA 0 1 := Reach.step 0 1 h0 (by decide)
  have h2 : Reach scenarioA 0 2 := Reach.step 1 2 h1 (by decide)
  have h3 : Reach scenarioA 0 3 := Reach.step 2 3 h2 (by decide)
  have h4 : Reach scenarioA 0 4 := Reach.step 0 4 h0 (by decide)
  exact ⟨h0, h1, h2, h3, h4⟩

theorem bfs_run_scenarioA (sched : Nat → List Nat) (fuel : Nat) :
    bfs_run scenarioA 0 (List.replicate 5 0) sched (fuel + 1) =
      some ({ queue := [0, 4, 1], front := 3, visited := [1, 1, 0, 0, 1] }, 1) := by
  rw [bfs_run_eq]
  simp only [bfs_level, level_events_init]
  decide

/-- C1 (the code falls short of the claim): on Scenario A with start 0 and a
fresh array, `bfs_parallel` returns, under every schedule, with only the
start vertex and its two neighbours marked, although the vertices 2 and 3
are reachable from the start vertex as well. -/
theorem bfs_parallel_stops_after_first_level (sched : Nat → List Nat) (fuel : Nat) :
    bfs_parallel scenarioA 0 (List.replicate 5 0) sched (fuel + 1) = some [1, 1, 0, 0, 1] ∧
      Reach scenarioA 0 2 ∧ Reach scenarioA 0 3 := by
  refine ⟨?_, scenarioA_reach.2.2.1, scenarioA_reach.2.2.2.1⟩
  unfold bfs_parallel
  rw [bfs_run_scenarioA]
  rfl

/-- C4 (the code falls short of the claim): on Scenario A with start 0 the
run of `bfs_parallel` ends, under every schedule, with `queue[0..rear)` equal
to `[0, 4, 1]` and `rear = 3`, although all five vertices are reachable: the
reachable vertices 2 and 3 never enter the queue. -/
theorem bfs_parallel_queue_misses_reachable (sched : Nat → List Nat) (fuel : Nat) :
    (∃ s r, bfs_run scenarioA 0 (List.replicate 5 0) sched (fuel + 1) = some (s, r) ∧
      s.queue = [0, 4, 1] ∧ s.rear = 3) ∧
    Reach scenarioA 0 0 ∧ Reach scenarioA 0 1 ∧ Reach scenarioA 0 2 ∧
      Reach scenarioA 0 3 ∧ Reach scenarioA 0 4 :=
  ⟨⟨_, _, bfs_run_scenarioA sched fuel, rfl, rfl⟩, scenarioA_reach⟩

/-- C6 (the code falls short of the claim): on Scenario A with start 0 the
frontier `queue[front..rear)` is `[0]` at the start of round 0 and empty after
that round, under every schedule, although the vertices 1 and 4 have
distance 1 from the start vertex. -/
theorem bfs_parallel_second_frontier_empty (sched : Nat → List Nat) :
    (bfs_rounds scenarioA sched (bfs_init 0 (List.replicate 5 0)) 0).frontier = [0] ∧
    (bfs_rounds scenarioA sched (bfs_init 0 (List.replicate 5 0)) 1).frontier = [] ∧
    DistEq scenarioA 0 1 1 ∧ DistEq scenarioA 0 1 4 := by
  refine ⟨rfl, ?_, ?_, ?_⟩
  · rw [bfs_rounds_one, bfs_level_frontier]
  · refine ⟨PathLen.step 0 0 1 PathLen.zero (by decide), ?_⟩
    intro j hj h
    have hj0 : j = 0 := by omega
    subst hj0
    cases h
  · refine ⟨PathLen.step 0 0 4 PathLen.zero (by decide), ?_⟩
    intro j hj h
    have hj0 : j = 0 := by omega
    subst hj0
    cases h

/-- C7: for every graph, start vertex in range, array `visited` and schedule
the loop of `bfs_parallel` terminates (fuel `num_vertices` is enough) and the
number of rounds it has executed is at most `num_vertices`. -/
theorem bfs_parallel_rounds_le (g : Graph) (start_vertex : Nat) (visited : List Nat)
    (sched : Nat → List Nat) (fuel : Nat)
    (hst : start_vertex < g.num_vertices) (hf : g.num_vertices ≤ fuel) :
    ∃ s r, bfs_run g start_vertex visited sched fuel = some (s, r) ∧ r ≤ g.num_vertices := by
  obtain ⟨f, rfl⟩ : ∃ f, fuel = f + 1 := ⟨fuel - 1, by omega⟩
  exact ⟨_, 1, bfs_run_eq g start_vertex visited sched f, by omega⟩

theorem bfs_parallel_rounds_le_witness :
    0 < scenarioA.num_vertices ∧ scenarioA.num_vertices ≤ 5 ∧
    ∃ s r, bfs_run scenarioA 0 (List.replicate 5 0) seq_sched 5 = some (s, r) ∧
      r ≤ scenarioA.num_vertices :=
  ⟨by decide, by decide,
    bfs_parallel_rounds_le scenarioA 0 (List.replicate 5 0) seq_sched 5 (by decide) (by decide)⟩

theorem scenarioC_reach_lt (v : Nat) (h : Reach scenarioC 0 v) : v < 3 := by
  induction h with
  | refl => decide
  | step u v _ huv ih =>
    have hu : u = 0 ∨ u = 1 ∨ u = 2 := by omega
    rcases hu with rfl | rfl | rfl
    · have hn : neighbors scenarioC 0 = [2, 1] := by decide
      rw [hn] at huv
      simp at huv
      omega
    · have hn : neighbors scenarioC 1 = [2, 0] := by decide
      rw [hn] at huv
      simp at huv
      omega
    · have hn : neighbors scenarioC 2 = [0, 1] := by decide
      rw [hn] at huv
      simp at huv
      omega

theorem mpi_rounds_checked_eq (n size : Nat) (graphs : Nat → Graph) (s0 : MpiState)
    (k : Nat) (s : MpiState) (h : mpi_rounds_checked n size graphs s0 k = some s) :
    s = mpi_rounds size graphs s0 k ∧ s.rear ≤ n := by
  induction k generalizing s with
  | zero =>
    simp only [mpi_rounds_checked] at h
    split at h
    · rename_i hle
      simp only [Option.some.injEq] at h
      subst h
      exact ⟨rfl, hle⟩
    · cases h
  | succ k ih =>
    simp only [mpi_rounds_checked] at h
    cases hk : mpi_rounds_checked n size graphs s0 k with
    | none => simp [hk] at h
    | some t =>
      simp only [hk, mpi_round_checked] at h
      split at h
      · rename_i hle
        simp only [Option.some.injEq] at h
        subst h
        rw [(ih t hk).1] at hle ⊢
        exact ⟨rfl, hle⟩
      · cases h

theorem mpi_rounds_checked_of_le (n size : Nat) (graphs : Nat → Graph) (s0 : MpiState)
    (k : Nat) (h : ∀ j, j ≤ k → (mpi_rounds size graphs s0 j).rear ≤ n) :
    mpi_rounds_checked n size graphs s0 k = some (mpi_rounds size graphs s0 k) := by
  induction k with
  | zero =>
    have h0 := h 0 (le_refl 0)
    simp only [mpi_rounds] at h0
    simp only [mpi_rounds_checked, mpi_rounds, h0, if_true]
  | succ k ih =>
    have h1 := h (k + 1) (le_refl _)
    simp only [mpi_rounds] at h1
    simp only [mpi_rounds_checked, ih (fun j hj => h j (Nat.le_succ_of_le hj)), mpi_round_checked,
      mpi_rounds, h1, if_true]

/-- At no point of a run of `bfs_parallel` started with an all-zero array is
a vertex without a path from the start vertex in the queue or marked. -/
theorem bfs_parallel_never_marks_unreachable (g : Graph) (start_vertex : Nat)
    (visited : List Nat) (sched : Nat → List Nat) (hz : ∀ x ∈ visited, x = 0) (k m v : Nat)
    (hv : v ∈ (bfs_point g sched (bfs_init start_vertex visited) k m).queue ∨
      (bfs_point g sched (bfs_init start_vertex visited) k m).visited.getD v 0 ≠ 0) :
    Reach g start_vertex v := by
  have h := sound_bfs_point g sched start_vertex visited hz k m
  rcases hv with hv | hv
  · exact h.1 v hv
  · exact h.2 v hv

/-- As long as the merged queue of `bfs_mpi` has stayed within its `n` slots,
every vertex in it, in the local queue of a rank or marked in the private
array of a rank has a path from the start vertex. -/
theorem bfs_mpi_checked_sound (n size : Nat) (g : Graph) (start_vertex : Nat)
    (visiteds : List (List Nat)) (hzs : ∀ l ∈ visiteds, ∀ x ∈ l, x = 0) (k : Nat)
    (s : MpiState)
    (hk : mpi_rounds_checked n size (fun _ => g) (mpi_init start_vertex visiteds) k = some s)
    (rank m v : Nat)
    (hv : v ∈ s.queue ∨
      v ∈ (rank_point g s.queue s.front rank size (s.visited.getD rank []) m).2 ∨
      (rank_point g s.queue s.front rank size (s.visited.getD rank []) m).1.getD v 0 ≠ 0) :
    Reach g start_vertex v := by
  obtain ⟨he, _⟩ := mpi_rounds_checked_eq n size _ _ k s hk
  subst he
  have h := msound_rounds size g start_vertex visiteds hzs k
  have hr := msound_rank g start_vertex _ _
    (mpi_rounds size (fun _ => g) (mpi_init start_vertex visiteds) k).front rank size
    ((rank_events g (mpi_rounds size (fun _ => g) (mpi_init start_vertex visiteds) k).queue
      (mpi_rounds size (fun _ => g) (mpi_init start_vertex visiteds) k).front rank size).take m)
    (fun a ha => List.mem_of_mem_take ha) h.1 (h.2 rank)
  rcases hv with hv | hv | hv
  · exact h.1 v hv
  · exact hr.2 v hv
  · exact hr.1 v hv

theorem forkGraph_reach (v : Nat) (h : Reach forkGraph 6 v) : v ≠ 0 ∧ v ≠ 5 ∧ v < 7 := by
  induction h with
  | refl => decide
  | step u v _ huv ih =>
    have hu : u = 1 ∨ u = 2 ∨ u = 3 ∨ u = 4 ∨ u = 6 := by omega
    rcases hu with rfl | rfl | rfl | rfl | rfl
    · have hn : neighbors forkGraph 1 = [3, 2] := by decide
      rw [hn] at huv
      simp at huv
      omega
    · have hn : neighbors forkGraph 2 = [1, 6] := by decide
      rw [hn] at huv
      simp at huv
      omega
    · have hn : neighbors forkGraph 3 = [4, 1] := by decide
      rw [hn] at huv
      simp at huv
      omega
    · have hn : neighbors forkGraph 4 = [3] := by decide
      rw [hn] at huv
      simp at huv
      omega
    · have hn : neighbors forkGraph 6 = [2] := by decide
      rw [hn] at huv
      simp at huv
      omega

/-- C8 (the code falls short of the claim): on the 7-vertex graph with the
path 6 - 2 - 1 - 3 - 4 and the separate edge 0 - 5, start 6 and two
processes, the queue is `[6, 2, 1, 6, 3, 2]` after three rounds; the fourth
round merges two more entries, so `rear` becomes 8 and the gather writes
past the 7 slots of `queue`; the slice of rank 1 in the round after that
contains index 7, which is no slot of the array and lies outside what is
broadcast.  From there on nothing ties what is expanded to the graph, while
the vertices 5 and 0 have no path from the start vertex. -/
theorem bfs_mpi_expands_outside_queue :
    mpi_run_checked 2 forkGraph 6 3 =
      some { queue := [6, 2, 1, 6, 3, 2], front := 0,
             visited := [[0, 0, 1, 1, 0, 0, 1], [0, 1, 1, 0, 0, 0, 1]] } ∧
    (mpi_round 2 (fun _ => forkGraph)
      { queue := [6, 2, 1, 6, 3, 2], front := 0,
        visited := [[0, 0, 1, 1, 0, 0, 1], [0, 1, 1, 0, 0, 0, 1]] }).rear = 8 ∧
    forkGraph.num_vertices = 7 ∧
    mpi_run_checked 2 forkGraph 6 4 = none ∧
    7 ∈ rank_slice 0 1 2 8 ∧
    ¬ Reach forkGraph 6 5 ∧ ¬ Reach forkGraph 6 0 :=
  ⟨by decide, by decide, by decide, by decide, by decide,
    fun h => (forkGraph_reach 5 h).2.1 rfl, fun h => (forkGraph_reach 0 h).1 rfl⟩

/-- C9: two runs of `bfs_parallel` on the same graph, start vertex and
(fresh) array return the same array `visited`, whatever the two schedules;
more generally the marks left by any single level do not depend on the order
in which its critical sections are executed. -/
theorem bfs_parallel_schedule_independent (g : Graph) (start_vertex : Nat) (visited : List Nat)
    (sched1 sched2 : Nat → List Nat) (fuel1 fuel2 : Nat) (h1 : 1 ≤ fuel1) (h2 : 1 ≤ fuel2) :
    (∃ vis, bfs_parallel g start_vertex visited sched1 fuel1 = some vis ∧
      bfs_parallel g start_vertex visited sched2 fuel2 = some vis) ∧
    ∀ (s : BfsState) (picks1 picks2 : List Nat),
      (bfs_level g picks1 s).visited = (bfs_level g picks2 s).visited := by
  obtain ⟨f1, rfl⟩ : ∃ f, fuel1 = f + 1 := ⟨fuel1 - 1, by omega⟩
  obtain ⟨f2, rfl⟩ : ∃ f, fuel2 = f + 1 := ⟨fuel2 - 1, by omega⟩
  refine ⟨⟨(bfs_level g (sched1 0) (bfs_init start_vertex visited)).visited, ?_, ?_⟩,
    fun s p1 p2 => bfs_level_visited_picks g p1 p2 s⟩
  · unfold bfs_parallel
    rw [bfs_run_eq]
    rfl
  · unfold bfs_parallel
    rw [bfs_run_eq]
    simp only [Option.map_some']
    rw [bfs_level_visited_picks g (sched2 0) (sched1 0)]

theorem bfs_parallel_schedule_independent_witness :
    1 ≤ 5 ∧ 1 ≤ 7 ∧
    ∃ vis, bfs_parallel scenarioA 0 (List.replicate 5 0) seq_sched 5 = some vis ∧
      bfs_parallel scenarioA 0 (List.replicate 5 0) (fun _ => [1, 0, 0, 2]) 7 = some vis :=
  ⟨by decide, by decide,
    (bfs_parallel_schedule_independent scenarioA 0 (List.replicate 5 0) seq_sched
      (fun _ => [1, 0, 0, 2]) 5 7 (by decide) (by decide)).1⟩

/-- C10: `add_edge(g, u, v)` with `u`, `v` in range leaves `num_vertices`
alone, puts `v` at the head of `adj[u]` and `u` at the head of `adj[v]` (for
`u != v` these lists are exactly the old ones with the new node in front),
keeps the old lists as tails, and leaves every other list unchanged; and in
every graph built from `create_graph` by such calls, `v` occurs in `adj[u]`
as often as `u` occurs in `adj[v]`. -/
theorem add_edge_undirected (g : Graph) (u v : Nat)
    (hlen : g.adj_lists.length = g.num_vertices)
    (hu : u < g.num_vertices) (hv : v < g.num_vertices) :
    ((add_edge g u v).num_vertices = g.num_vertices ∧
      (neighbors (add_edge g u v) u).head? = some v ∧
      (neighbors (add_edge g u v) v).head? = some u ∧
      (u ≠ v → neighbors (add_edge g u v) u = v :: neighbors g u ∧
        neighbors (add_edge g u v) v = u :: neighbors g v) ∧
      neighbors g u <:+ neighbors (add_edge g u v) u ∧
      neighbors g v <:+ neighbors (add_edge g u v) v ∧
      ∀ w, w ≠ u → w ≠ v → neighbors (add_edge g u v) w = neighbors g w) ∧
    ∀ b : Graph, Built b → ∀ x y, (neighbors b x).count y = (neighbors b y).count x := by
  have hu2 : u < g.adj_lists.length := by omega
  have hv2 : v < g.adj_lists.length := by omega
  refine ⟨⟨rfl, ?_, ?_, ?_, ?_, ?_, ?_⟩, fun b hb x y => built_count_symm b hb x y⟩
  · rw [neighbors_add_edge g u v u hu2 hv2]
    by_cases h : u = v
    · subst h; simp
    · simp [h]
  · rw [neighbors_add_edge g u v v hu2 hv2]
    simp
  · intro h
    have h2 : ¬ v = u := fun e => h e.symm
    rw [neighbors_add_edge g u v u hu2 hv2, neighbors_add_edge g u v v hu2 hv2]
    simp [h, h2]
  · rw [neighbors_add_edge g u v u hu2 hv2]
    exact List.suffix_append _ _
  · rw [neighbors_add_edge g u v v hu2 hv2]
    exact List.suffix_append _ _
  · intro w hwu hwv
    rw [neighbors_add_edge g u v w hu2 hv2]
    simp [hwu, hwv]

theorem add_edge_undirected_witness :
    (add_edge (create_graph 5) 0 1).adj_lists.length = (add_edge (create_graph 5) 0 1).num_vertices ∧
    1 < (add_edge (create_graph 5) 0 1).num_vertices ∧
    2 < (add_edge (create_graph 5) 0 1).num_vertices ∧
    neighbors (add_edge (add_edge (create_graph 5) 0 1) 1 2) 1 = [2, 0] ∧
    (neighbors scenarioA 0).count 4 = (neighbors scenarioA 4).count 0 := by
  have h := add_edge_undirected (add_edge (create_graph 5) 0 1) 1 2
    (by decide) (by decide) (by decide)
  refine ⟨by decide, by decide, by decide, ?_, ?_⟩
  · rw [(h.1.2.2.2.1 (by decide)).1]
    decide
  · exact h.2 scenarioA
      (Built.add _ 0 4 (Built.add _ 2 3 (Built.add _ 1 2 (Built.add _ 0 1 (Built.create 5)
        (by decide) (by decide)) (by decide) (by decide)) (by decide) (by decide))
        (by decide) (by decide)) 0 4

theorem pathGraph_reach : Reach pathGraph 0 0 ∧ Reach pathGraph 0 1 ∧ Reach pathGraph 0 2 := by
  have h0 : Reach pathGraph 0 0 := Reach.refl
  have h1 : Reach pathGraph 0 1 := Reach.step 0 1 h0 (by decide)
  have h2 : Reach pathGraph 0 2 := Reach.step 1 2 h1 (by decide)
  exact ⟨h0, h1, h2⟩

theorem mpi_run_inv (size : Nat) (g : Graph) (start_vertex k : Nat)
    (hs : 1 ≤ size) (hw : g.WellFormed) (hst : start_vertex < g.num_vertices) :
    MpiInv size g.num_vertices (mpi_run size g start_vertex k) :=
  mpi_inv_rounds size g hw start_vertex hs hst k

theorem mpi_run_start_mem (size : Nat) (g : Graph) (start_vertex k : Nat) :
    start_vertex ∈ (mpi_run size g start_vertex k).queue := by
  obtain ⟨t, ht⟩ := mpi_rounds_queue_grows size (fun _ => g)
    (mpi_init start_vertex (zero_visited size g.num_vertices)) k
  unfold mpi_run
  rw [ht]
  simp [mpi_init]

theorem zero_visited_all_zero (size n : Nat) : ∀ l ∈ zero_visited size n, ∀ x ∈ l, x = 0 := by
  intro l hl x hx
  unfold zero_visited at hl
  rw [List.eq_of_mem_replicate hl] at hx
  exact List.eq_of_mem_replicate hx

/-- C3 (the code falls short of the claim): on the 5-vertex graph without
edges and start 0 the loop of `bfs_mpi` is not left, whatever the number of
processes and however many rounds are allowed, although with one process
already the first round merges nothing (the queue stays `[0]`). -/
theorem bfs_mpi_never_exits (size fuel : Nat) :
    bfs_mpi size (fun _ => scenarioD) 0 (zero_visited size 5) fuel = none ∧
    (mpi_rounds 1 (fun _ => scenarioD) (mpi_init 0 (zero_visited 1 5)) 1).queue = [0] :=
  ⟨bfs_mpi_none size (fun _ => scenarioD) 0 (zero_visited size 5) fuel, by decide⟩

theorem mpi_run_checked_eq (size : Nat) (g : Graph) (start_vertex k : Nat) (s : MpiState)
    (h : mpi_run_checked size g start_vertex k = some s) :
    s = mpi_run size g start_vertex k ∧ s.rear ≤ g.num_vertices :=
  mpi_rounds_checked_eq g.num_vertices size _ _ k s h

/-- As long as the merged queue has stayed within its `num_vertices` slots, a
vertex id occurs in it exactly as often as there are ranks that have it
marked, so at most `size` times. -/
theorem mpi_checked_once_per_rank (size : Nat) (g : Graph) (start_vertex k : Nat)
    (s : MpiState) (hs : 1 ≤ size) (hw : g.WellFormed) (hst : start_vertex < g.num_vertices)
    (hk : mpi_run_checked size g start_vertex k = some s) :
    (∀ v, s.queue.count v =
      ((List.range size).map (fun r => (s.visited.getD r []).getD v 0)).sum) ∧
    (∀ r v, (s.visited.getD r []).getD v 0 ≤ 1) ∧
    (∀ v, s.queue.count v ≤ size) ∧ s.rear ≤ g.num_vertices := by
  obtain ⟨he, hle⟩ := mpi_run_checked_eq size g start_vertex k s hk
  have h := mpi_run_inv size g start_vertex k hs hw hst
  rw [← he] at h
  exact ⟨h.2.2.2.2.2, h.2.2.2.1, mpi_count_le size _ _ h, hle⟩

/-- With one process the queue never outgrows its slots and no vertex id
occurs in it twice. -/
theorem mpi_single_in_bounds (g : Graph) (start_vertex k : Nat) (hw : g.WellFormed)
    (hst : start_vertex < g.num_vertices) :
    mpi_run_checked 1 g start_vertex k = some (mpi_run 1 g start_vertex k) ∧
    (mpi_run 1 g start_vertex k).queue.Nodup := by
  constructor
  · apply mpi_rounds_checked_of_le
    intro j _
    have h := mpi_rear_le 1 _ _ (mpi_run_inv 1 g start_vertex j (le_refl 1) hw hst)
    rw [Nat.one_mul] at h
    exact h
  · rw [List.nodup_iff_count_le_one]
    exact fun v => mpi_count_le 1 _ _ (mpi_run_inv 1 g start_vertex k (le_refl 1) hw hst) v

/-- C5 (the code falls short of the claim): on Scenario A with start 0 and
two processes the merged queue is `[0, 4, 1, 2, 0]` after two rounds, with
the vertex 0 in it twice, and the third round merges two more entries into a
queue of 5 slots that is already full (`rear` becomes 7); on the path
0 - 1 - 2 in 5 vertices the queue is `[0, 1, 2, 0]` after two rounds and the
fourth round writes past the last slot. -/
theorem bfs_mpi_duplicates_overflow_queue :
    (mpi_run_checked 2 scenarioA 0 2 =
        some { queue := [0, 4, 1, 2, 0], front := 0,
               visited := [[1, 1, 1, 0, 1], [1, 0, 0, 0, 0]] } ∧
      List.count 0 [0, 4, 1, 2, 0] = 2 ∧
      (mpi_round 2 (fun _ => scenarioA)
        { queue := [0, 4, 1, 2, 0], front := 0,
          visited := [[1, 1, 1, 0, 1], [1, 0, 0, 0, 0]] }).rear = 7 ∧
      scenarioA.num_vertices = 5 ∧
      mpi_run_checked 2 scenarioA 0 3 = none) ∧
    (mpi_run_checked 2 pathGraph 0 2 =
        some { queue := [0, 1, 2, 0], front := 0,
               visited := [[1, 1, 0, 0, 0], [1, 0, 1, 0, 0]] } ∧
      pathGraph.num_vertices = 5 ∧
      mpi_run_checked 2 pathGraph 0 4 = none) :=
  ⟨⟨by decide, by decide, by decide, by decide, by decide⟩, by decide, by decide, by decide⟩

theorem bfs_run_pathGraph (sched : Nat → List Nat) (fuel : Nat) :
    bfs_run pathGraph 0 (List.replicate 5 0) sched (fuel + 1) =
      some ({ queue := [0, 1], front := 2, visited := [1, 1, 0, 0, 0] }, 1) := by
  rw [bfs_run_eq]
  simp only [bfs_level, level_events_init]
  decide

/-- C2 (the code falls short of the claim): on the path 0 - 1 - 2 in 5
vertices with three processes the queue stays within its slots, the fourth
round discovers nothing, and the array of rank 0 is then `[1, 1, 0, 0, 0]`:
the reachable vertex 2 is not marked in it; with one process the third round
discovers nothing and the array of rank 0 is `[1, 1, 1, 0, 0]`, while
`bfs_parallel` returns `[1, 1, 0, 0, 0]` under every schedule. -/
theorem bfs_mpi_coordinator_misses_reachable (sched : Nat → List Nat) (fuel : Nat) :
    (mpi_run_checked 3 pathGraph 0 3 =
        some { queue := [0, 1, 2, 0, 1], front := 0,
               visited := [[1, 1, 0, 0, 0], [1, 0, 1, 0, 0], [0, 1, 0, 0, 0]] } ∧
      mpi_run_checked 3 pathGraph 0 4 =
        some { queue := [0, 1, 2, 0, 1], front := 0,
               visited := [[1, 1, 0, 0, 0], [1, 0, 1, 0, 0], [0, 1, 0, 0, 0]] } ∧
      Reach pathGraph 0 2) ∧
    (mpi_run_checked 1 pathGraph 0 2 =
        some { queue := [0, 1, 2], front := 0, visited := [[1, 1, 1, 0, 0]] } ∧
      mpi_run_checked 1 pathGraph 0 3 =
        some { queue := [0, 1, 2], front := 0, visited := [[1, 1, 1, 0, 0]] } ∧
      bfs_parallel pathGraph 0 (List.replicate 5 0) sched (fuel + 1) = some [1, 1, 0, 0, 0]) := by
  refine ⟨⟨by decide, by decide, pathGraph_reach.2.2⟩, by decide, by decide, ?_⟩
  unfold bfs_parallel
  rw [bfs_run_pathGraph]
  rfl

/-- When a round discovers nothing while the merged queue has stayed within
its slots, the vertex ids in the queue are exactly the vertices reachable
from the start vertex and exactly those marked by at least one rank; the
array of rank 0 marks reachable vertices only. -/
theorem mpi_checked_fixpoint (size : Nat) (g : Graph) (start_vertex k : Nat) (s : MpiState)
    (hs : 1 ≤ size) (hw : g.WellFormed) (hst : start_vertex < g.num_vertices)
    (hk : mpi_run_checked size g start_vertex k = some s)
    (hfix : (mpi_round size (fun _ => g) s).queue = s.queue) :
    (∀ v, v ∈ s.queue ↔ Reach g start_vertex v) ∧
    (∀ v, Reach g start_vertex v ↔ ∃ r, r < size ∧ (s.visited.getD r []).getD v 0 = 1) ∧
    (∀ v, (s.visited.getD 0 []).getD v 0 ≠ 0 → Reach g start_vertex v) := by
  obtain ⟨he, _⟩ := mpi_run_checked_eq size g start_vertex k s hk
  subst he
  have hinv := mpi_run_inv size g start_vertex k hs hw hst
  have hsound := msound_rounds size g start_vertex (zero_visited size g.num_vertices)
    (zero_visited_all_zero size g.num_vertices) k
  have hq : ∀ v, v ∈ (mpi_run size g start_vertex k).queue ↔ Reach g start_vertex v := by
    intro v
    constructor
    · exact hsound.1 v
    · exact mpi_fixpoint_reach size g hw hs _ hinv hfix start_vertex
        (mpi_run_start_mem size g start_vertex k) v
  refine ⟨hq, ?_, hsound.2 0⟩
  intro v
  rw [← hq v]
  exact mpi_mem_queue_iff size g.num_vertices _ hinv v

/-- With one process some round among the first `num_vertices` discovers
nothing, and once a round discovers nothing the array of rank 0 has 1 for
the reachable vertices and 0 for the others. -/
theorem mpi_single_fixpoint (g : Graph) (start_vertex : Nat) (hw : g.WellFormed)
    (hst : start_vertex < g.num_vertices) :
    (∃ k, k < g.num_vertices ∧
      (mpi_run 1 g start_vertex (k + 1)).queue = (mpi_run 1 g start_vertex k).queue) ∧
    ∀ k, (mpi_run 1 g start_vertex (k + 1)).queue = (mpi_run 1 g start_vertex k).queue →
      ((mpi_run 1 g start_vertex k).visited.getD 0 []).length = g.num_vertices ∧
      ∀ v, (Reach g start_vertex v →
          ((mpi_run 1 g start_vertex k).visited.getD 0 []).getD v 0 = 1) ∧
        (¬ Reach g start_vertex v →
          ((mpi_run 1 g start_vertex k).visited.getD 0 []).getD v 0 = 0) := by
  constructor
  · obtain ⟨k, hk, hq⟩ := mpi_fixpoint_exists 1 g hw start_vertex (le_refl 1) hst
    exact ⟨k, by omega, hq⟩
  · intro k hfix
    have hinv := mpi_run_inv 1 g start_vertex k (le_refl 1) hw hst
    have h := mpi_checked_fixpoint 1 g start_vertex k _ (le_refl 1) hw hst
      (mpi_single_in_bounds g start_vertex k hw hst).1 hfix
    refine ⟨hinv.2.2.1 0 (by decide), ?_⟩
    intro v
    constructor
    · intro hr
      obtain ⟨r, hr1, hr2⟩ := (h.2.1 v).mp hr
      have hr0 : r = 0 := by omega
      rw [hr0] at hr2
      exact hr2
    · intro hn
      by_contra hc
      exact hn (h.2.2 v hc)

/-! ## The strided partition -/

theorem stride_ge (size rear fuel i j : Nat) (h : i ∈ stride_from size rear fuel j) : j ≤ i := by
  induction fuel generalizing j with
  | zero => simp [stride_from] at h
  | succ fuel ih =>
    unfold stride_from at h
    split at h
    · rcases List.mem_cons.mp h with h1 | h1
      · omega
      · have := ih _ h1
        omega
    · cases h

theorem stride_mod (size rear fuel i j : Nat) (h : i ∈ stride_from size rear fuel j) :
    ∃ t, i = j + t * size := by
  induction fuel generalizing j with
  | zero => simp [stride_from] at h
  | succ fuel ih =>
    unfold stride_from at h
    split at h
    · rcases List.mem_cons.mp h with h1 | h1
      · exact ⟨0, by omega⟩
      · obtain ⟨t, ht⟩ := ih _ h1
        exact ⟨t + 1, by rw [ht]; ring⟩
    · cases h

theorem stride_nodup (size rear fuel j : Nat) (hs : 1 ≤ size) :
    (stride_from size rear fuel j).Nodup := by
  induction fuel generalizing j with
  | zero => simp [stride_from]
  | succ fuel ih =>
    unfold stride_from
    split
    · refine List.nodup_cons.mpr ⟨?_, ih _⟩
      intro hm
      have := stride_ge _ _ _ _ _ hm
      omega
    · exact List.nodup_nil

theorem div_step (a size : Nat) (hs : 1 ≤ size) (ha : 1 ≤ a) :
    (a + size - 1) / size = 1 + (a - size + size - 1) / size := by
  by_cases h : size ≤ a
  · have e : a + size - 1 = (a - size + size - 1) + size := by omega
    rw [e, Nat.add_div_right _ (by omega : 0 < size)]
    omega
  · have e1 : a - size = 0 := by omega
    rw [e1, Nat.zero_add, Nat.div_eq_of_lt (by omega : size - 1 < size)]
    have e2 : a + size - 1 = (a - 1) + size := by omega
    rw [e2, Nat.add_div_right _ (by omega : 0 < size), Nat.div_eq_of_lt (by omega : a - 1 < size)]

theorem stride_length (size rear fuel j : Nat) (hs : 1 ≤ size) (hf : rear - j ≤ fuel) :
    (stride_from size rear fuel j).length = (rear - j + size - 1) / size := by
  induction fuel generalizing j with
  | zero =>
    have e : rear - j = 0 := by omega
    rw [e, Nat.zero_add, Nat.div_eq_of_lt (by omega : size - 1 < size)]
    rfl
  | succ fuel ih =>
    unfold stride_from
    split
    · rename_i hj
      rw [List.length_cons, ih (j + size) (by omega), div_step (rear - j) size hs (by omega)]
      have e : rear - (j + size) = rear - j - size := by omega
      rw [e]
      omega
    · rename_i hj
      have e : rear - j = 0 := by omega
      rw [e, Nat.zero_add, Nat.div_eq_of_lt (by omega : size - 1 < size)]
      rfl

theorem rank_slice_length (front rank size rear : Nat) (hs : 1 ≤ size) :
    (rank_slice front rank size rear).length = (rear - (front + rank) + size - 1) / size :=
  stride_length size rear _ _ hs (le_refl _)

theorem mem_rank_slice_iff (front rank size rear i : Nat) (hs : 1 ≤ size) :
    i ∈ rank_slice front rank size rear ↔ ∃ t, i = front + rank + t * size ∧ i < rear := by
  unfold rank_slice
  constructor
  · intro h
    obtain ⟨t, ht⟩ := stride_mod _ _ _ _ _ h
    exact ⟨t, ht, mem_stride_lt _ _ _ _ _ h⟩
  · rintro ⟨t, rfl, hlt⟩
    exact mem_stride_of size rear hs t _ _ hlt (le_refl _)

theorem slice_rank_unique (front size r1 r2 t1 t2 : Nat) (h1 : r1 < size) (h2 : r2 < size)
    (e : front + r1 + t1 * size = front + r2 + t2 * size) : r1 = r2 := by
  have e2 : r1 + t1 * size = r2 + t2 * size := by omega
  have m1 : (r1 + t1 * size) % size = r1 := by
    rw [Nat.add_mul_mod_self_right, Nat.mod_eq_of_lt h1]
  have m2 : (r2 + t2 * size) % size = r2 := by
    rw [Nat.add_mul_mod_self_right, Nat.mod_eq_of_lt h2]
  rw [← m1, ← m2, e2]

/-- C15: for `size >= 1` the loop `for (i = front + rank; i < rear; i += size)`
visits exactly the indices `front + rank + t * size` below `rear`, each once;
the index sets of two different ranks below `size` are disjoint, every index
of `[front, rear)` belongs to the set of some rank below `size` and nothing
else does, and the sizes of two ranks' sets differ by at most one. -/
theorem strided_partition (front rear size : Nat) (hs : 1 ≤ size) :
    (∀ rank i, i ∈ rank_slice front rank size rear ↔
      ∃ t, i = front + rank + t * size ∧ i < rear) ∧
    (∀ rank, (rank_slice front rank size rear).Nodup) ∧
    (∀ r1 r2 i, r1 < size → r2 < size → r1 ≠ r2 →
      i ∈ rank_slice front r1 size rear → i ∉ rank_slice front r2 size rear) ∧
    (∀ i, (front ≤ i ∧ i < rear) ↔ ∃ rank, rank < size ∧ i ∈ rank_slice front rank size rear) ∧
    (∀ r1 r2, r1 < size → r2 < size →
      (rank_slice front r1 size rear).length ≤ (rank_slice front r2 size rear).length + 1) := by
  refine ⟨fun rank i => mem_rank_slice_iff front rank size rear i hs,
    fun rank => stride_nodup size rear _ _ hs, ?_, ?_, ?_⟩
  · intro r1 r2 i h1 h2 hne hi1 hi2
    obtain ⟨t1, e1, _⟩ := (mem_rank_slice_iff front r1 size rear i hs).mp hi1
    obtain ⟨t2, e2, _⟩ := (mem_rank_slice_iff front r2 size rear i hs).mp hi2
    exact hne (slice_rank_unique front size r1 r2 t1 t2 h1 h2 (by rw [← e1, ← e2]))
  · intro i
    constructor
    · rintro ⟨h1, h2⟩
      refine ⟨(i - front) % size, Nat.mod_lt _ hs, ?_⟩
      rw [mem_rank_slice_iff front _ size rear i hs]
      refine ⟨(i - front) / size, ?_, h2⟩
      have := Nat.mod_add_div (i - front) size
      rw [Nat.mul_comm] at this
      omega
    · rintro ⟨rank, _, hi⟩
      obtain ⟨t, e, hlt⟩ := (mem_rank_slice_iff front rank size rear i hs).mp hi
      exact ⟨by omega, hlt⟩
  · intro r1 r2 h1 h2
    rw [rank_slice_length front r1 size rear hs, rank_slice_length front r2 size rear hs]
    have e : (rear - (front + r1) + size - 1) / size ≤
        ((rear - (front + r2) + size - 1) + size) / size :=
      Nat.div_le_div_right (by omega)
    rw [Nat.add_div_right _ (by omega : 0 < size)] at e
    exact e

theorem strided_partition_witness :
    1 ≤ 3 ∧ rank_slice 2 0 3 10 = [2, 5, 8] ∧ rank_slice 2 1 3 10 = [3, 6, 9] ∧
    rank_slice 2 2 3 10 = [4, 7] ∧
    (∀ i, (2 ≤ i ∧ i < 10) ↔ ∃ rank, rank < 3 ∧ i ∈ rank_slice 2 rank 3 10) :=
  ⟨by decide, by decide, by decide, by decide, (strided_partition 2 10 3 (by decide)).2.2.2.1⟩

/-! ## The merge on rank 0 -/

theorem displs_loop_length (cs : List Nat) (t : Nat) :
    (displs_loop cs t).1.length = cs.length := by
  induction cs generalizing t with
  | nil => rfl
  | cons c cs ih => simp [displs_loop, ih]

theorem displs_loop_total (cs : List Nat) (t : Nat) : (displs_loop cs t).2 = t + cs.sum := by
  induction cs generalizing t with
  | nil => simp [displs_loop]
  | cons c cs ih =>
    simp only [displs_loop, ih, List.sum_cons]
    omega

theorem displs_loop_getD (cs : List Nat) (t i : Nat) (hi : i < cs.length) :
    (displs_loop cs t).1.getD i 0 = t + (cs.take i).sum := by
  induction cs generalizing t i with
  | nil => simp at hi
  | cons c cs ih =>
    cases i with
    | zero => simp [displs_loop]
    | succ i =>
      have hi2 : i < cs.length := by simpa using hi
      simp only [displs_loop, List.take_succ_cons, List.sum_cons]
      have := ih (t + c) i hi2
      rw [List.getD_cons_succ, this]
      omega

theorem write_at_append (pre junk l : List Nat) :
    write_at (pre ++ junk) pre.length l = (pre ++ l) ++ junk.drop l.length := by
  unfold write_at
  rw [List.take_left, List.drop_append]

theorem gatherv_flatten (ls : List (List Nat)) (pre junk : List Nat)
    (hj : junk.length = (ls.map List.length).sum) :
    gatherv (pre ++ junk) ls (displs_loop (ls.map List.length) pre.length).1 =
      pre ++ ls.flatten := by
  induction ls generalizing pre junk with
  | nil =>
    have : junk = [] := List.length_eq_zero.mp (by simpa using hj)
    simp [gatherv, displs_loop, this]
  | cons l ls ih =>
    simp only [List.map_cons, displs_loop, gatherv, List.flatten_cons]
    rw [write_at_append]
    have hl : (pre ++ l).length = pre.length + l.length := List.length_append _ _
    rw [← hl, ih (pre ++ l) (junk.drop l.length)
      (by simp only [List.length_drop, hj, List.map_cons, List.sum_cons]; omega)]
    rw [List.append_assoc]

/-- C16: on rank 0 the loop over the gathered counts yields
`displs[i] = counts[0] + ... + counts[i-1]` and `total_count` equal to the
sum of all counts, so the block of rank `i + 1` starts where the block of
rank `i` ends; and whatever the `total_count` slots behind `queue[rear)`
held, after the gather the queue is the old `queue[0..rear)` followed by the
local queues in rank order, which is the queue of the next round, and `rear`
has grown by `total_count`. -/
theorem prefix_sum_merge (queue slots : List Nat) (locals : List (List Nat))
    (hslots : slots.length = (locals.map List.length).sum) :
    (displs_loop (locals.map List.length) 0).1.length = locals.length ∧
    (∀ i, i < locals.length →
      (displs_loop (locals.map List.length) 0).1.getD i 0 =
        ((locals.map List.length).take i).sum) ∧
    (∀ i, i + 1 < locals.length →
      (displs_loop (locals.map List.length) 0).1.getD (i + 1) 0 =
        (displs_loop (locals.map List.length) 0).1.getD i 0 + (locals.getD i []).length) ∧
    (displs_loop (locals.map List.length) 0).2 = (locals.map List.length).sum ∧
    (mpi_merge queue slots locals).1 = queue ++ locals.flatten ∧
    (mpi_merge queue slots locals).2 = queue.length + (locals.map List.length).sum ∧
    (mpi_merge queue slots locals).1.length = (mpi_merge queue slots locals).2 ∧
    ∀ (size : Nat) (graphs : Nat → Graph) (s : MpiState),
      queue = s.queue → locals = round_locals size graphs s →
      (mpi_round size graphs s).queue = (mpi_merge queue slots locals).1 ∧
      (mpi_round size graphs s).rear = (mpi_merge queue slots locals).2 := by
  have hlen : ((locals.map List.length)).length = locals.length := List.length_map _ _
  have hget : ∀ i, i < locals.length →
      (displs_loop (locals.map List.length) 0).1.getD i 0 =
        ((locals.map List.length).take i).sum := by
    intro i hi
    rw [displs_loop_getD _ 0 i (by rw [hlen]; exact hi), Nat.zero_add]
  have hmerge : (mpi_merge queue slots locals).1 = queue ++ locals.flatten := by
    unfold mpi_merge
    have h := gatherv_flatten locals [] slots hslots
    simp only [List.nil_append, List.length_nil] at h
    simp only [h]
  have hrear : (mpi_merge queue slots locals).2 = queue.length + (locals.map List.length).sum := by
    unfold mpi_merge
    simp only [displs_loop_total, Nat.zero_add]
  refine ⟨by rw [displs_loop_length, hlen], hget, ?_, by rw [displs_loop_total, Nat.zero_add],
    hmerge, hrear, ?_, ?_⟩
  · intro i hi
    rw [hget (i + 1) hi, hget i (by omega),
      List.sum_take_succ _ i (by rw [hlen]; omega)]
    congr 1
    rw [List.getElem_map, List.getD_eq_getElem _ _ (by omega : i < locals.length)]
  · rw [hmerge, hrear, List.length_append, List.length_flatten]
  · intro size graphs s hq hl
    constructor
    · rw [hmerge, mpi_round_queue, hq, hl]
      rfl
    · unfold MpiState.rear
      rw [hrear, mpi_round_queue, List.length_append, List.length_flatten, hq, hl]
      rfl

theorem prefix_sum_merge_witness :
    [7, 7, 7, 7, 7].length = ([[1, 2], [], [3, 4, 5]].map List.length).sum ∧
    (displs_loop ([[1, 2], [], [3, 4, 5]].map List.length) 0).1 = [0, 2, 2] ∧
    (mpi_merge [0] [7, 7, 7, 7, 7] [[1, 2], [], [3, 4, 5]]).1 = [0] ++ [[1, 2], [], [3, 4, 5]].flatten ∧
    (mpi_merge [0] [7, 7, 7, 7, 7] [[1, 2], [], [3, 4, 5]]).2 = 6 :=
  ⟨by decide, by decide,
    (prefix_sum_merge [0] [7, 7, 7, 7, 7] [[1, 2], [], [3, 4, 5]] (by decide)).2.2.2.2.1,
    by decide⟩

/-! ## A graph that only rank 0 holds -/

theorem expand_buf_mem (evs : List Nat) (vq : List Nat × List Nat) (v : Nat)
    (h : v ∈ (expand vq evs).2) : v ∈ vq.2 ∨ v ∈ evs := by
  induction evs generalizing vq with
  | nil => exact Or.inl h
  | cons a evs ih =>
    rw [expand_cons] at h
    rcases ih (try_mark vq a) h with h1 | h1
    · unfold try_mark at h1
      split at h1
      · rcases List.mem_append.mp h1 with h2 | h2
        · exact Or.inl h2
        · exact Or.inr (by rw [List.mem_singleton.mp h2]; exact List.mem_cons_self _ _)
      · exact Or.inl h1
    · exact Or.inr (List.mem_cons_of_mem _ h1)

theorem rank_events_no_edges (g : Graph) (hg : ∀ v, neighbors g v = []) (queue : List Nat)
    (front rank size : Nat) : rank_events g queue front rank size = [] := by
  unfold rank_events
  simp [hg]

theorem rank_expand_no_edges (g : Graph) (hg : ∀ v, neighbors g v = []) (queue : List Nat)
    (front rank size : Nat) (visited : List Nat) :
    rank_expand g queue front rank size visited = (visited, []) := by
  unfold rank_expand
  rw [rank_events_no_edges g hg]
  rfl

theorem mpi_trace_succ (size : Nat) (graphs : Nat → Graph) (start_vertex n k : Nat) :
    mpi_trace size graphs start_vertex n (k + 1) =
      mpi_round size graphs (mpi_trace size graphs start_vertex n k) := rfl

theorem idle_visited (size : Nat) (graphs : Nat → Graph) (start_vertex n : Nat)
    (hg : ∀ r, 1 ≤ r → ∀ v, neighbors (graphs r) v = []) (k r : Nat) (hr : 1 ≤ r) :
    (mpi_trace size graphs start_vertex n k).visited.getD r [] =
      if r < size then List.replicate n 0 else [] := by
  induction k with
  | zero =>
    simp only [mpi_trace, mpi_rounds, mpi_init, getD_set_gen, zero_visited_getD]
    have : ¬ r = 0 := by omega
    simp [this]
  | succ k ih =>
    rw [mpi_trace_succ, mpi_round_visited]
    split
    · rename_i h
      rw [rank_expand_no_edges (graphs r) (hg r hr), ih, if_pos h]
    · rfl

theorem flatten_range_head (size : Nat) (hs : 1 ≤ size) (f : Nat → List Nat)
    (h : ∀ r, 1 ≤ r → f r = []) : ((List.range size).map f).flatten = f 0 := by
  obtain ⟨m, rfl⟩ : ∃ m, size = m + 1 := ⟨size - 1, by omega⟩
  rw [List.range_succ_eq_map, List.map_cons, List.flatten_cons, List.map_map]
  have : ((List.range m).map (f ∘ Nat.succ)).flatten = [] := by
    rw [List.flatten_eq_nil_iff]
    intro l hl
    obtain ⟨r, _, rfl⟩ := List.mem_map.mp hl
    exact h (r + 1) (by omega)
  rw [this, List.append_nil]

/-- C17: when every rank `r >= 1` holds a graph without edges (as in `main`,
where only rank 0 calls `generate_random_graph`), then in every round each
rank `r >= 1` ends with an empty `local_queue` and an all-zero array, the
merged queue grows exactly by the `local_queue` of rank 0, and what rank 0
appends are neighbours of queue entries at indices that are multiples of
`size`. -/
theorem unreplicated_graph_workers_idle (size : Nat) (graphs : Nat → Graph)
    (start_vertex n k : Nat) (hs : 1 ≤ size)
    (hg : ∀ r, 1 ≤ r → ∀ v, neighbors (graphs r) v = []) :
    (∀ r, 1 ≤ r →
      (rank_expand (graphs r) (mpi_trace size graphs start_vertex n k).queue
        (mpi_trace size graphs start_vertex n k).front r size
        ((mpi_trace size graphs start_vertex n k).visited.getD r [])).2 = [] ∧
      ∀ v, ((mpi_trace size graphs start_vertex n k).visited.getD r []).getD v 0 = 0) ∧
    (mpi_trace size graphs start_vertex n 0).queue = [start_vertex] ∧
    (mpi_trace size graphs start_vertex n (k + 1)).queue =
      (mpi_trace size graphs start_vertex n k).queue ++
        (rank_expand (graphs 0) (mpi_trace size graphs start_vertex n k).queue
          (mpi_trace size graphs start_vertex n k).front 0 size
          ((mpi_trace size graphs start_vertex n k).visited.getD 0 [])).2 ∧
    (∀ i ∈ rank_slice (mpi_trace size graphs start_vertex n k).front 0 size
        (mpi_trace size graphs start_vertex n k).rear, i % size = 0) ∧
    (∀ a ∈ (rank_expand (graphs 0) (mpi_trace size graphs start_vertex n k).queue
          (mpi_trace size graphs start_vertex n k).front 0 size
          ((mpi_trace size graphs start_vertex n k).visited.getD 0 [])).2,
      ∃ i, i < (mpi_trace size graphs start_vertex n k).rear ∧ i % size = 0 ∧
        a ∈ neighbors (graphs 0) ((mpi_trace size graphs start_vertex n k).queue.getD i 0)) := by
  have hfront : (mpi_trace size graphs start_vertex n k).front = 0 :=
    mpi_rounds_front size graphs _ k
  have hslice : ∀ i ∈ rank_slice (mpi_trace size graphs start_vertex n k).front 0 size
      (mpi_trace size graphs start_vertex n k).rear, i % size = 0 := by
    intro i hi
    obtain ⟨t, e, _⟩ := (mem_rank_slice_iff _ 0 size _ i hs).mp hi
    rw [e, hfront]
    simp
  refine ⟨?_, rfl, ?_, hslice, ?_⟩
  · intro r hr
    constructor
    · rw [rank_expand_no_edges (graphs r) (hg r hr)]
    · intro v
      rw [idle_visited size graphs start_vertex n hg k r hr]
      split
      · exact getD_replicate_zero n v
      · rfl
  · rw [mpi_trace_succ, mpi_round_queue]
    congr 1
    exact flatten_range_head size hs _ (fun r hr => by
      rw [rank_expand_no_edges (graphs r) (hg r hr)])
  · intro a ha
    unfold rank_expand at ha
    rcases expand_buf_mem _ _ a ha with h1 | h1
    · cases h1
    · unfold rank_events at h1
      obtain ⟨i, hi, hai⟩ := List.mem_flatMap.mp h1
      exact ⟨i, mem_stride_lt _ _ _ _ _ hi, hslice i hi, hai⟩

theorem main_graphs_idle (g : Graph) (r : Nat) (hr : 1 ≤ r) (v : Nat) :
    neighbors (main_graphs g r) v = [] := by
  have : ¬ r = 0 := by omega
  simp only [main_graphs, this, if_false]
  exact neighbors_create_graph _ v

theorem unreplicated_graph_workers_idle_witness :
    1 ≤ 2 ∧ (∀ r, 1 ≤ r → ∀ v, neighbors (main_graphs scenarioA r) v = []) ∧
    (mpi_trace 2 (main_graphs scenarioA) 0 5 3).queue = [0, 4, 1, 2] ∧
    (∀ v, ((mpi_trace 2 (main_graphs scenarioA) 0 5 3).visited.getD 1 []).getD v 0 = 0) ∧
    (mpi_trace 2 (main_graphs scenarioA) 0 5 4).queue =
      (mpi_trace 2 (main_graphs scenarioA) 0 5 3).queue ++
        (rank_expand (main_graphs scenarioA 0) (mpi_trace 2 (main_graphs scenarioA) 0 5 3).queue
          (mpi_trace 2 (main_graphs scenarioA) 0 5 3).front 0 2
          ((mpi_trace 2 (main_graphs scenarioA) 0 5 3).visited.getD 0 [])).2 := by
  have h := unreplicated_graph_workers_idle 2 (main_graphs scenarioA) 0 5 3 (by decide)
    (main_graphs_idle scenarioA)
  exact ⟨by decide, main_graphs_idle scenarioA, by decide, (h.1 1 (by decide)).2, h.2.2.1⟩

/-! ## Flags only go from 0 to 1 -/

theorem flagstep_refl (a : Nat) : FlagStep a a := Or.inl rfl

theorem flagstep_trans (a b c : Nat) (h1 : FlagStep a b) (h2 : FlagStep b c) : FlagStep a c := by
  unfold FlagStep at *
  omega

theorem flagstep_one (a b : Nat) (h : FlagStep a b) (ha : a = 1) : b = 1 := by
  unfold FlagStep at h
  omega

theorem expand_flagstep (evs : List Nat) (vq : List Nat × List Nat) (v : Nat) :
    FlagStep (vq.1.getD v 0) ((expand vq evs).1.getD v 0) := by
  rw [expand_getD]
  split
  · rename_i h
    exact Or.inr ⟨h.2.2, rfl⟩
  · exact Or.inl rfl

theorem expand_take_add (vq : List Nat × List Nat) (evs : List Nat) (m j : Nat) :
    expand vq (evs.take (m + j)) = expand (expand vq (evs.take m)) ((evs.drop m).take j) := by
  rw [List.take_add, expand_append]

theorem expand_take_full (vq : List Nat × List Nat) (evs : List Nat) (m : Nat) :
    expand vq evs = expand (expand vq (evs.take m)) (evs.drop m) := by
  rw [← expand_append, List.take_append_drop]

theorem interleave_nil (ps : List Nat) : interleave ps [] = [] := by
  induction ps with
  | nil => rfl
  | cons p ps ih => simp [interleave, ih]

theorem level_events_done (g : Graph) (picks : List Nat) (s : BfsState)
    (h : ¬ s.front < s.rear) : level_events g picks s = [] := by
  unfold level_events BfsState.frontier
  unfold BfsState.rear at h
  rw [List.drop_of_length_le (by omega)]
  exact interleave_nil picks

/-- The marks and the queue at the start of the next round are those after
all critical sections of this round. -/
theorem bfs_rounds_succ_expand (g : Graph) (sched : Nat → List Nat) (s0 : BfsState) (k : Nat) :
    ((bfs_rounds g sched s0 (k + 1)).visited, (bfs_rounds g sched s0 (k + 1)).queue) =
      expand ((bfs_rounds g sched s0 k).visited, (bfs_rounds g sched s0 k).queue)
        (level_events g (sched k) (bfs_rounds g sched s0 k)) := by
  simp only [bfs_rounds]
  split
  · rfl
  · rename_i h
    rw [level_events_done g _ _ h]
    rfl

theorem bfs_point_pair (g : Graph) (sched : Nat → List Nat) (s0 : BfsState) (k m : Nat) :
    ((bfs_point g sched s0 k m).visited, (bfs_point g sched s0 k m).queue) =
      expand ((bfs_rounds g sched s0 k).visited, (bfs_rounds g sched s0 k).queue)
        ((level_events g (sched k) (bfs_rounds g sched s0 k)).take m) := rfl

theorem omp_flag_point_point (g : Graph) (sched : Nat → List Nat) (s0 : BfsState)
    (k m j v : Nat) :
    FlagStep ((bfs_point g sched s0 k m).visited.getD v 0)
      ((bfs_point g sched s0 k (m + j)).visited.getD v 0) := by
  have h1 := bfs_point_pair g sched s0 k m
  have h2 := bfs_point_pair g sched s0 k (m + j)
  rw [expand_take_add, ← h1] at h2
  have h3 := expand_flagstep
    (((level_events g (sched k) (bfs_rounds g sched s0 k)).drop m).take j)
    ((bfs_point g sched s0 k m).visited, (bfs_point g sched s0 k m).queue) v
  rw [← h2] at h3
  exact h3

theorem omp_flag_point_round (g : Graph) (sched : Nat → List Nat) (s0 : BfsState)
    (k m v : Nat) :
    FlagStep ((bfs_point g sched s0 k m).visited.getD v 0)
      ((bfs_rounds g sched s0 (k + 1)).visited.getD v 0) := by
  have h1 := bfs_point_pair g sched s0 k m
  have h2 := bfs_rounds_succ_expand g sched s0 k
  rw [expand_take_full _ _ m, ← h1] at h2
  have h3 := expand_flagstep
    ((level_events g (sched k) (bfs_rounds g sched s0 k)).drop m)
    ((bfs_point g sched s0 k m).visited, (bfs_point g sched s0 k m).queue) v
  rw [← h2] at h3
  exact h3

theorem omp_flag_round_round (g : Graph) (sched : Nat → List Nat) (s0 : BfsState)
    (k j v : Nat) :
    FlagStep ((bfs_rounds g sched s0 k).visited.getD v 0)
      ((bfs_rounds g sched s0 (k + j)).visited.getD v 0) := by
  induction j with
  | zero => exact flagstep_refl _
  | succ j ih =>
    refine flagstep_trans _ _ _ ih ?_
    have h := omp_flag_point_round g sched s0 (k + j) 0 v
    exact h

theorem mpi_flag_take (vq : List Nat × List Nat) (evs : List Nat) (m j v : Nat) :
    FlagStep ((expand vq (evs.take m)).1.getD v 0) ((expand vq (evs.take (m + j))).1.getD v 0) := by
  rw [expand_take_add]
  exact expand_flagstep _ _ v

theorem mpi_flag_full (vq : List Nat × List Nat) (evs : List Nat) (m v : Nat) :
    FlagStep ((expand vq (evs.take m)).1.getD v 0) ((expand vq evs).1.getD v 0) := by
  rw [expand_take_full vq evs m]
  exact expand_flagstep _ _ v

theorem mpi_flag_point_round (size : Nat) (graphs : Nat → Graph) (s : MpiState)
    (rank : Nat) (hr : rank < size) (m v : Nat) :
    FlagStep
      ((rank_point (graphs rank) s.queue s.front rank size (s.visited.getD rank []) m).1.getD v 0)
      (((mpi_round size graphs s).visited.getD rank []).getD v 0) := by
  rw [mpi_round_visited, if_pos hr]
  exact mpi_flag_full _ _ m v

theorem mpi_flag_round_round (size : Nat) (graphs : Nat → Graph) (s0 : MpiState)
    (rank : Nat) (hr : rank < size) (k j v : Nat) :
    FlagStep (((mpi_rounds size graphs s0 k).visited.getD rank []).getD v 0)
      (((mpi_rounds size graphs s0 (k + j)).visited.getD rank []).getD v 0) := by
  induction j with
  | zero => exact flagstep_refl _
  | succ j ih =>
    refine flagstep_trans _ _ _ ih ?_
    exact mpi_flag_point_round size graphs (mpi_rounds size graphs s0 (k + j)) rank hr 0 v

/-- C14: in a run of `bfs_parallel` every critical section and every round
leaves each entry of `visited` as it is or changes it from 0 to 1, so an
entry that is 1 at some point is 1 at every later point of the round and at
the start of every later round; the same holds in `bfs_mpi` for the private
array of every rank, inside a round and from round to round. -/
theorem visited_monotone (g : Graph) (sched : Nat → List Nat) (s0 : BfsState)
    (size : Nat) (graphs : Nat → Graph) (m0 : MpiState) (rank : Nat) (hr : rank < size)
    (k m j v : Nat) :
    (FlagStep ((bfs_point g sched s0 k m).visited.getD v 0)
        ((bfs_point g sched s0 k (m + j)).visited.getD v 0) ∧
      FlagStep ((bfs_point g sched s0 k m).visited.getD v 0)
        ((bfs_rounds g sched s0 (k + 1 + j)).visited.getD v 0) ∧
      ((bfs_point g sched s0 k m).visited.getD v 0 = 1 →
        (bfs_point g sched s0 k (m + j)).visited.getD v 0 = 1 ∧
        (bfs_rounds g sched s0 (k + 1 + j)).visited.getD v 0 = 1)) ∧
    (FlagStep
        ((rank_point (graphs rank) (mpi_rounds size graphs m0 k).queue
          (mpi_rounds size graphs m0 k).front rank size
          ((mpi_rounds size graphs m0 k).visited.getD rank []) m).1.getD v 0)
        ((rank_point (graphs rank) (mpi_rounds size graphs m0 k).queue
          (mpi_rounds size graphs m0 k).front rank size
          ((mpi_rounds size graphs m0 k).visited.getD rank []) (m + j)).1.getD v 0) ∧
      FlagStep
        ((rank_point (graphs rank) (mpi_rounds size graphs m0 k).queue
          (mpi_rounds size graphs m0 k).front rank size
          ((mpi_rounds size graphs m0 k).visited.getD rank []) m).1.getD v 0)
        (((mpi_rounds size graphs m0 (k + 1 + j)).visited.getD rank []).getD v 0) ∧
      ((rank_point (graphs rank) (mpi_rounds size graphs m0 k).queue
          (mpi_rounds size graphs m0 k).front rank size
          ((mpi_rounds size graphs m0 k).visited.getD rank []) m).1.getD v 0 = 1 →
        (rank_point (graphs rank) (mpi_rounds size graphs m0 k).queue
          (mpi_rounds size graphs m0 k).front rank size
          ((mpi_rounds size graphs m0 k).visited.getD rank []) (m + j)).1.getD v 0 = 1 ∧
        ((mpi_rounds size graphs m0 (k + 1 + j)).visited.getD rank []).getD v 0 = 1)) := by
  have a1 := omp_flag_point_point g sched s0 k m j v
  have a2 := flagstep_trans _ _ _ (omp_flag_point_round g sched s0 k m v)
    (omp_flag_round_round g sched s0 (k + 1) j v)
  have b1 : FlagStep
      ((rank_point (graphs rank) (mpi_rounds size graphs m0 k).queue
        (mpi_rounds size graphs m0 k).front rank size
        ((mpi_rounds size graphs m0 k).visited.getD rank []) m).1.getD v 0)
      ((rank_point (graphs rank) (mpi_rounds size graphs m0 k).queue
        (mpi_rounds size graphs m0 k).front rank size
        ((mpi_rounds size graphs m0 k).visited.getD rank []) (m + j)).1.getD v 0) :=
    mpi_flag_take _ _ m j v
  have b2 := flagstep_trans _ _ _
    (mpi_flag_point_round size graphs (mpi_rounds size graphs m0 k) rank hr m v)
    (mpi_flag_round_round size graphs m0 rank hr (k + 1) j v)
  exact ⟨⟨a1, a2, fun h => ⟨flagstep_one _ _ a1 h, flagstep_one _ _ a2 h⟩⟩,
    ⟨b1, b2, fun h => ⟨flagstep_one _ _ b1 h, flagstep_one _ _ b2 h⟩⟩⟩

theorem visited_monotone_witness :
    0 < 2 ∧
    ((bfs_point scenarioA seq_sched (bfs_init 0 (List.replicate 5 0)) 0 1).visited.getD 4 0 = 1 →
      (bfs_point scenarioA seq_sched (bfs_init 0 (List.replicate 5 0)) 0 (1 + 1)).visited.getD 4 0
        = 1 ∧
      (bfs_rounds scenarioA seq_sched (bfs_init 0 (List.replicate 5 0)) (0 + 1 + 3)).visited.getD
        4 0 = 1) ∧
    (bfs_point scenarioA seq_sched (bfs_init 0 (List.replicate 5 0)) 0 1).visited.getD 4 0 = 1 :=
  ⟨by decide,
    (visited_monotone scenarioA seq_sched (bfs_init 0 (List.replicate 5 0)) 2
      (fun _ => scenarioA) (mpi_init 0 (zero_visited 2 5)) 0 (by decide) 0 1 1 4).1.2.2,
    by decide⟩

/-! ## Queue, marks and array bounds of the shared-memory engine -/

theorem omp_inv_point (g : Graph) (hw : g.WellFormed) (sched : Nat → List Nat)
    (start_vertex : Nat) (hst : start_vertex < g.num_vertices) (k m : Nat) :
    OmpInv g.num_vertices
      (bfs_point g sched (bfs_init start_vertex (List.replicate g.num_vertices 0)) k m).queue
      (bfs_point g sched (bfs_init start_vertex (List.replicate g.num_vertices 0)) k m).visited :=
  omp_inv_expand _ _ _ _ (omp_inv_rounds g hw sched start_vertex hst k)
    (fun a ha => level_events_lt g hw _ _ a (List.mem_of_mem_take ha))

/-- C12: at every point of a run of `bfs_parallel` (well-formed graph, start
vertex in range, fresh array) every entry of `visited` is 0 or 1, every
vertex stored in `queue[0..rear)` has its entry at 1, and every vertex whose
entry is 1 is stored in `queue[0..rear)`. -/
theorem queue_iff_visited (g : Graph) (sched : Nat → List Nat) (start_vertex k m : Nat)
    (hw : g.WellFormed) (hst : start_vertex < g.num_vertices) :
    (∀ v, v ∈ (bfs_point g sched (bfs_init start_vertex
        (List.replicate g.num_vertices 0)) k m).queue →
      (bfs_point g sched (bfs_init start_vertex
        (List.replicate g.num_vertices 0)) k m).visited.getD v 0 = 1) ∧
    (∀ v, (bfs_point g sched (bfs_init start_vertex
        (List.replicate g.num_vertices 0)) k m).visited.getD v 0 = 1 →
      v ∈ (bfs_point g sched (bfs_init start_vertex
        (List.replicate g.num_vertices 0)) k m).queue) ∧
    (∀ v, (bfs_point g sched (bfs_init start_vertex
        (List.replicate g.num_vertices 0)) k m).visited.getD v 0 ≤ 1) := by
  obtain ⟨_, h2, _, h4⟩ := omp_inv_point g hw sched start_vertex hst k m
  refine ⟨?_, ?_, h2⟩
  · intro v hv
    have h5 := List.count_pos_iff.mpr hv
    have h6 := h2 v
    rw [h4 v] at h5
    omega
  · intro v hv
    rw [← List.count_pos_iff, h4 v, hv]
    exact Nat.one_pos

theorem queue_iff_visited_witness :
    scenarioA.WellFormed ∧ 0 < scenarioA.num_vertices ∧
    (∀ v, v ∈ (bfs_point scenarioA seq_sched (bfs_init 0
        (List.replicate scenarioA.num_vertices 0)) 0 1).queue →
      (bfs_point scenarioA seq_sched (bfs_init 0
        (List.replicate scenarioA.num_vertices 0)) 0 1).visited.getD v 0 = 1) ∧
    (bfs_point scenarioA seq_sched (bfs_init 0
        (List.replicate scenarioA.num_vertices 0)) 0 1).queue = [0, 4] :=
  ⟨by decide, by decide,
    (queue_iff_visited scenarioA seq_sched 0 0 1 (by decide) (by decide)).1, by decide⟩

theorem bfs_point_rear_mono (g : Graph) (sched : Nat → List Nat) (s0 : BfsState) (k m : Nat) :
    (bfs_point g sched s0 k m).rear ≤ (bfs_point g sched s0 k (m + 1)).rear := by
  have h1 := bfs_point_pair g sched s0 k m
  have h2 := bfs_point_pair g sched s0 k (m + 1)
  rw [expand_take_add, ← h1] at h2
  obtain ⟨t, ht⟩ := expand_buf_grows
    (((level_events g (sched k) (bfs_rounds g sched s0 k)).drop m).take 1)
    ((bfs_point g sched s0 k m).visited, (bfs_point g sched s0 k m).queue)
  rw [← h2] at ht
  simp only at ht
  unfold BfsState.rear
  rw [ht, List.length_append]
  omega

/-- C19: for a well-formed graph, a start vertex in range and a fresh array,
at every point of a run of `bfs_parallel` `rear` is at most `num_vertices`,
so a critical section that appends writes `queue[rear]` at an index below
`num_vertices`; every queue entry read is a vertex id below the length of
`adj_lists`, and every adjacency node met in the round is an index below the
length of `visited`; the two writes before the loop are in bounds as well. -/
theorem bfs_parallel_in_bounds (g : Graph) (sched : Nat → List Nat) (start_vertex k m : Nat)
    (hw : g.WellFormed) (hst : start_vertex < g.num_vertices) :
    (0 < g.num_vertices ∧ start_vertex < (List.replicate g.num_vertices 0).length) ∧
    (bfs_point g sched (bfs_init start_vertex (List.replicate g.num_vertices 0)) k m).rear
      ≤ g.num_vertices ∧
    ((bfs_point g sched (bfs_init start_vertex (List.replicate g.num_vertices 0)) k (m + 1)).rear
        ≠ (bfs_point g sched (bfs_init start_vertex (List.replicate g.num_vertices 0)) k m).rear →
      (bfs_point g sched (bfs_init start_vertex (List.replicate g.num_vertices 0)) k m).rear
        < g.num_vertices) ∧
    (∀ q, q < (bfs_point g sched (bfs_init start_vertex
        (List.replicate g.num_vertices 0)) k m).rear →
      (bfs_point g sched (bfs_init start_vertex
        (List.replicate g.num_vertices 0)) k m).queue.getD q 0 < g.adj_lists.length) ∧
    (∀ a ∈ level_events g (sched k)
        (bfs_rounds g sched (bfs_init start_vertex (List.replicate g.num_vertices 0)) k),
      a < (bfs_point g sched (bfs_init start_vertex
        (List.replicate g.num_vertices 0)) k m).visited.length) := by
  have hrear : ∀ m', (bfs_point g sched (bfs_init start_vertex
      (List.replicate g.num_vertices 0)) k m').rear ≤ g.num_vertices :=
    fun m' => (bfs_point_nodup g hw sched start_vertex hst k m').2.1
  obtain ⟨h1, _, h3, _⟩ := omp_inv_point g hw sched start_vertex hst k m
  refine ⟨⟨by omega, by simpa using hst⟩, hrear m, ?_, ?_, ?_⟩
  · intro hne
    have := bfs_point_rear_mono g sched (bfs_init start_vertex
      (List.replicate g.num_vertices 0)) k m
    have := hrear (m + 1)
    omega
  · intro q hq
    unfold BfsState.rear at hq
    rw [List.getD_eq_getElem _ _ hq, hw.1]
    exact h3 _ (List.getElem_mem _)
  · intro a ha
    rw [h1]
    exact level_events_lt g hw _ _ a ha

theorem bfs_parallel_in_bounds_witness :
    scenarioA.WellFormed ∧ 0 < scenarioA.num_vertices ∧
    (bfs_point scenarioA seq_sched (bfs_init 0
      (List.replicate scenarioA.num_vertices 0)) 0 2).rear ≤ scenarioA.num_vertices ∧
    (bfs_point scenarioA seq_sched (bfs_init 0
      (List.replicate scenarioA.num_vertices 0)) 0 2).rear = 3 :=
  ⟨by decide, by decide,
    (bfs_parallel_in_bounds scenarioA seq_sched 0 0 2 (by decide) (by decide)).2.1, by decide⟩

/-! ## Symmetry of the result, rescans, the generator -/

theorem built_mem_symm (g : Graph) (h : Built g) (a b : Nat) :
    b ∈ neighbors g a ↔ a ∈ neighbors g b := by
  rw [← List.count_pos_iff, ← List.count_pos_iff, built_count_symm g h a b]

/-- On a graph built by `add_edge` calls, `v` is marked by the run from `u`
exactly when `u` is marked by the run from `v`. -/
theorem bfs_parallel_symmetric (g : Graph) (hb : Built g) (u v : Nat)
    (hu : u < g.num_vertices) (hv : v < g.num_vertices)
    (sched1 sched2 : Nat → List Nat) (fuel1 fuel2 : Nat) :
    ∃ vu vv,
      bfs_parallel g u (List.replicate g.num_vertices 0) sched1 (fuel1 + 1) = some vu ∧
      bfs_parallel g v (List.replicate g.num_vertices 0) sched2 (fuel2 + 1) = some vv ∧
      (vu.getD v 0 = 1 ↔ vv.getD u 0 = 1) := by
  obtain ⟨vu, h1, h2⟩ := bfs_parallel_marks g u sched1 fuel1 hu
  obtain ⟨vv, h3, h4⟩ := bfs_parallel_marks g v sched2 fuel2 hv
  refine ⟨vu, vv, h1, h3, ?_⟩
  rw [(h2 v hv).1, (h4 u hu).1, built_mem_symm g hb u v]
  constructor
  · rintro (h | h)
    · exact Or.inl h.symm
    · exact Or.inr h
  · rintro (h | h)
    · exact Or.inl h.symm
    · exact Or.inr h

theorem bfs_run_scenarioA_from3 (sched : Nat → List Nat) (fuel : Nat) :
    bfs_run scenarioA 3 (List.replicate 5 0) sched (fuel + 1) =
      some ({ queue := [3, 2], front := 2, visited := [0, 0, 1, 1, 0] }, 1) := by
  rw [bfs_run_eq]
  simp only [bfs_level, level_events_init]
  decide

/-- C11 (the code falls short of the claim): on Scenario A the runs of
`bfs_parallel` from start 3 and from start 0 return, under every schedule,
the arrays `[0, 0, 1, 1, 0]` and `[1, 1, 0, 0, 1]`, although 3 and 0 are
reachable from each other, so lie in one component. -/
theorem bfs_parallel_component_sets_differ (sched1 sched2 : Nat → List Nat) (fuel1 fuel2 : Nat) :
    bfs_parallel scenarioA 3 (List.replicate 5 0) sched1 (fuel1 + 1) = some [0, 0, 1, 1, 0] ∧
    bfs_parallel scenarioA 0 (List.replicate 5 0) sched2 (fuel2 + 1) = some [1, 1, 0, 0, 1] ∧
    Reach scenarioA 0 3 ∧ Reach scenarioA 3 0 := by
  refine ⟨?_, ?_, scenarioA_reach.2.2.2.1, ?_⟩
  · unfold bfs_parallel
    rw [bfs_run_scenarioA_from3]
    rfl
  · unfold bfs_parallel
    rw [bfs_run_scenarioA]
    rfl
  · have h3 : Reach scenarioA 3 3 := Reach.refl
    have h2 : Reach scenarioA 3 2 := Reach.step 3 2 h3 (by decide)
    have h1 : Reach scenarioA 3 1 := Reach.step 2 1 h2 (by decide)
    exact Reach.step 1 0 h1 (by decide)

theorem mpi_run_rear_pos (size : Nat) (g : Graph) (start_vertex k : Nat) :
    0 < (mpi_run size g start_vertex k).rear :=
  List.length_pos_of_mem (mpi_run_start_mem size g start_vertex k)

/-- In every round rank 0 expands queue index 0 again. -/
theorem mpi_rescans_index_zero (size : Nat) (g : Graph) (start_vertex k : Nat) (hs : 1 ≤ size) :
    0 ∈ rank_slice (mpi_run size g start_vertex k).front 0 size
      (mpi_run size g start_vertex k).rear := by
  have hf : (mpi_run size g start_vertex k).front = 0 := mpi_rounds_front size _ _ k
  rw [hf]
  have h := mem_rank_slice size (mpi_run size g start_vertex k).rear 0 hs
    (mpi_run_rear_pos size g start_vertex k)
  rw [Nat.zero_mod] at h
  exact h

/-- C13 (the code falls short of the claim): on the path 0 - 1 - 2 with one
process the queue is `[0, 1]` after the first round and `[0, 1, 2]` after
the second, and the indices expanded in the second and third round are
`[0, 1]` and `[0, 1, 2]`, not only the index of the vertex merged in the
round before; queue index 0 is expanded in every round. -/
theorem bfs_mpi_rescans_old_entries :
    (mpi_run 1 pathGraph 0 1).queue = [0, 1] ∧
    rank_slice (mpi_run 1 pathGraph 0 1).front 0 1 (mpi_run 1 pathGraph 0 1).rear = [0, 1] ∧
    (mpi_run 1 pathGraph 0 2).queue = [0, 1, 2] ∧
    rank_slice (mpi_run 1 pathGraph 0 2).front 0 1 (mpi_run 1 pathGraph 0 2).rear = [0, 1, 2] ∧
    ∀ k, 0 ∈ rank_slice (mpi_run 1 pathGraph 0 k).front 0 1 (mpi_run 1 pathGraph 0 k).rear :=
  ⟨by decide, by decide, by decide, by decide,
    fun k => mpi_rescans_index_zero 1 pathGraph 0 k (le_refl 1)⟩

theorem draw_dest_ne (n src : Nat) (hn : 0 < n) (rs : List Nat) (d : Nat) (rest : List Nat)
    (h : draw_dest n src rs = some (d, rest)) : d ≠ src ∧ d < n := by
  induction rs with
  | nil => simp [draw_dest] at h
  | cons r rs ih =>
    unfold draw_dest at h
    split at h
    · exact ih h
    · rename_i hc
      simp only [Option.some.injEq, Prod.mk.injEq] at h
      rw [← h.1]
      exact ⟨fun e => hc (Or.inr e), Nat.mod_lt r hn⟩

/-- What the generator does achieve: when it returns, the vertex count is
unchanged and no vertex has gained itself as a neighbour. -/
theorem generate_no_self_loop (i : Nat) (rs : List Nat) (g g2 : Graph)
    (hl : g.adj_lists.length = g.num_vertices) (hn : 0 < g.num_vertices)
    (h : generate_random_graph g i rs = some g2) :
    g2.num_vertices = g.num_vertices ∧ g2.adj_lists.length = g2.num_vertices ∧
    ∀ v, (neighbors g2 v).count v = (neighbors g v).count v := by
  induction i generalizing rs g with
  | zero =>
    simp only [generate_random_graph, Option.some.injEq] at h
    subst h
    exact ⟨rfl, hl, fun v => rfl⟩
  | succ i ih =>
    cases rs with
    | nil => simp [generate_random_graph] at h
    | cons r rs =>
      simp only [generate_random_graph] at h
      cases hd : draw_dest g.num_vertices (r % g.num_vertices) rs with
      | none => simp [hd] at h
      | some p =>
        obtain ⟨d, rest⟩ := p
        simp only [hd] at h
        obtain ⟨hne, hlt⟩ := draw_dest_ne g.num_vertices _ hn rs d rest hd
        have hsrc : r % g.num_vertices < g.num_vertices := Nat.mod_lt r hn
        have h2 := ih rest (add_edge g (r % g.num_vertices) d)
          (by rw [add_edge_length, hl]; rfl) hn h
        refine ⟨h2.1, h2.2.1, ?_⟩
        intro v
        rw [h2.2.2 v, neighbors_add_edge g _ d v (by omega) (by omega)]
        simp only [List.count_append, count_ite_single]
        have e1 : ¬ (v = d ∧ r % g.num_vertices = v) := fun e => hne (by omega)
        have e2 : ¬ (v = r % g.num_vertices ∧ d = v) := fun e => hne (by omega)
        simp only [e1, e2, if_false, Nat.zero_add]

/-- C18 (the code falls short of the claim): on a graph with 3 vertices,
`num_edges = 2` and `rand()` returning 0, 1, 0, 1 the generator returns with
the edge between 0 and 1 added twice (1 occurs twice in `adj[0]`), although
three different edges without self-loop exist. -/
theorem generate_random_graph_duplicate_edge :
    generate_random_graph (create_graph 3) 2 [0, 1, 0, 1] =
      some { num_vertices := 3, adj_lists := [[1, 1], [0, 0], []] } ∧
    (neighbors { num_vertices := 3, adj_lists := [[1, 1], [0, 0], []] } 0).count 1 = 2 := by
  decide

/-! ## One process against the shared-memory engine -/

theorem bfs_rounds_stay (g : Graph) (sched : Nat → List Nat) (start_vertex : Nat)
    (visited : List Nat) (k : Nat) :
    bfs_rounds g sched (bfs_init start_vertex visited) (k + 1) =
      bfs_level g (sched 0) (bfs_init start_vertex visited) := by
  induction k with
  | zero => exact bfs_rounds_one g sched start_vertex visited
  | succ k ih =>
    rw [bfs_rounds, ih]
    have h : ¬ (bfs_level g (sched 0) (bfs_init start_vertex visited)).front <
        (bfs_level g (sched 0) (bfs_init start_vertex visited)).rear := by
      rw [bfs_level_front]
      exact lt_irrefl _
    simp only [h, if_false]

theorem mem_single_events (g : Graph) (queue : List Nat) (a : Nat) :
    a ∈ rank_events g queue 0 0 1 ↔ ∃ u ∈ queue, a ∈ neighbors g u := by
  constructor
  · exact mem_rank_events g queue 0 0 1 a
  · rintro ⟨u, hu, ha⟩
    obtain ⟨i, hi, rfl⟩ := List.mem_iff_getElem.mp hu
    unfold rank_events
    refine List.mem_flatMap.mpr ⟨i, ?_, ?_⟩
    · have h := mem_rank_slice 1 queue.length i (le_refl 1) hi
      rw [Nat.mod_one] at h
      exact h
    · rw [List.getD_eq_getElem _ _ hi]
      exact ha

/-- With one process the vertices marked after `k` rounds of `bfs_mpi` are
exactly those with a path of at most `k` edges from the start vertex. -/
theorem mpi_single_within (g : Graph) (start_vertex : Nat) (hw : g.WellFormed)
    (hst : start_vertex < g.num_vertices) (k v : Nat) :
    ((mpi_run 1 g start_vertex k).visited.getD 0 []).getD v 0 = 1 ↔
      ∃ j, j ≤ k ∧ PathLen g start_vertex j v := by
  induction k generalizing v with
  | zero =>
    have e : (mpi_run 1 g start_vertex 0).visited.getD 0 [] =
        (List.replicate g.num_vertices 0).set start_vertex 1 := by
      unfold mpi_run
      simp only [mpi_rounds]
      rw [mpi_init_visited 1 g.num_vertices start_vertex 0 (le_refl 1), if_pos rfl]
    rw [e, getD_set_eq, getD_replicate_zero]
    simp only [List.length_replicate, hst, and_true]
    constructor
    · intro h
      split at h
      · rename_i hv
        rw [hv]
        exact ⟨0, le_refl 0, PathLen.zero⟩
      · cases h
    · rintro ⟨j, hj, hp⟩
      have hj0 : j = 0 := by omega
      subst hj0
      cases hp
      simp
  | succ k ih =>
    have hinv := mpi_run_inv 1 g start_vertex k (le_refl 1) hw hst
    have hq : ∀ u, u ∈ (mpi_run 1 g start_vertex k).queue ↔
        ∃ j, j ≤ k ∧ PathLen g start_vertex j u := by
      intro u
      rw [mpi_mem_queue_iff 1 g.num_vertices _ hinv u, ← ih u]
      constructor
      · rintro ⟨r, hr, h⟩
        have hr0 : r = 0 := by omega
        rw [hr0] at h
        exact h
      · intro h
        exact ⟨0, by decide, h⟩
    have e : (mpi_run 1 g start_vertex (k + 1)).visited.getD 0 [] =
        (expand ((mpi_run 1 g start_vertex k).visited.getD 0 [], [])
          (rank_events g (mpi_run 1 g start_vertex k).queue 0 0 1)).1 := by
      have hf : (mpi_run 1 g start_vertex k).front = 0 := hinv.1
      show (mpi_round 1 (fun _ => g) (mpi_run 1 g start_vertex k)).visited.getD 0 [] = _
      rw [mpi_round_visited, if_pos (by decide), hf]
      rfl
    rw [e, expand_getD]
    have hlen : ((mpi_run 1 g start_vertex k).visited.getD 0 []).length = g.num_vertices :=
      hinv.2.2.1 0 (by decide)
    have hle := hinv.2.2.2.1 0 v
    simp only [hlen]
    constructor
    · intro h
      split at h
      · rename_i hc
        obtain ⟨u, hu, hvu⟩ := (mem_single_events g _ v).mp hc.1
        obtain ⟨j, hj, hp⟩ := (hq u).mp hu
        exact ⟨j + 1, by omega, PathLen.step j u v hp hvu⟩
      · obtain ⟨j, hj, hp⟩ := (ih v).mp h
        exact ⟨j, by omega, hp⟩
    · rintro ⟨j, hj, hp⟩
      by_cases h1 : ((mpi_run 1 g start_vertex k).visited.getD 0 []).getD v 0 = 1
      · have hne : ¬ ((mpi_run 1 g start_vertex k).visited.getD 0 []).getD v 0 = 0 := by omega
        simp only [hne, and_false, if_false]
        exact h1
      · have h0 : ((mpi_run 1 g start_vertex k).visited.getD 0 []).getD v 0 = 0 := by omega
        have hnw : ¬ ∃ j, j ≤ k ∧ PathLen g start_vertex j v := fun hex => h1 ((ih v).mpr hex)
        cases hp with
        | zero => exact absurd ⟨0, Nat.zero_le k, PathLen.zero⟩ hnw
        | step j2 u _ hpu hvu =>
          have hu : u ∈ (mpi_run 1 g start_vertex k).queue :=
            (hq u).mpr ⟨j2, by omega, hpu⟩
          have hev := (mem_single_events g _ v).mpr ⟨u, hu, hvu⟩
          have hvn : v < g.num_vertices := neighbors_lt g hw u v hvu
          simp only [hev, hvn, h0, and_self, if_true]

/-- C20 (the code falls short of the claim): on the path 0 - 1 - 2 with one
process `bfs_mpi` has after two rounds the queue `[0, 1, 2]` and the array
`[1, 1, 1, 0, 0]`, while `bfs_parallel` has after two passes of its loop
test, under every schedule, the queue `[0, 1]` and the array
`[1, 1, 0, 0, 0]`: the vertex 2, at distance 2 from the start vertex, is
marked by the one and not by the other. -/
theorem bfs_mpi_single_ahead_of_bfs_parallel (sched : Nat → List Nat) :
    (mpi_run 1 pathGraph 0 2).queue = [0, 1, 2] ∧
    (mpi_run 1 pathGraph 0 2).visited.getD 0 [] = [1, 1, 1, 0, 0] ∧
    (bfs_rounds pathGraph sched (bfs_init 0 (List.replicate 5 0)) 2).queue = [0, 1] ∧
    (bfs_rounds pathGraph sched (bfs_init 0 (List.replicate 5 0)) 2).visited = [1, 1, 0, 0, 0] ∧
    DistEq pathGraph 0 2 2 := by
  have hr : bfs_rounds pathGraph sched (bfs_init 0 (List.replicate 5 0)) 2 =
      { queue := [0, 1], front := 2, visited := [1, 1, 0, 0, 0] } := by
    rw [bfs_rounds_stay]
    simp only [bfs_level, level_events_init]
    decide
  refine ⟨by decide, by decide, by rw [hr], by rw [hr], ?_⟩
  refine ⟨PathLen.step 1 1 2 (PathLen.step 0 0 1 PathLen.zero (by decide)) (by decide), ?_⟩
  intro j hj hp
  have hj01 : j = 0 ∨ j = 1 := by omega
  rcases hj01 with rfl | rfl
  · cases hp
  · cases hp with
    | step _ u _ hpu hvu =>
      cases hpu
      revert hvu
      decide

end BfsProject
